import Mathlib

/-!
A verification development for the reactive form-model tree of
`modules/angular2/src/forms/model.ts`: the `AbstractControl` hierarchy
(`Control`, `ControlGroup`, `ControlArray`), its value/validity propagation
protocol, and the observable change-channel emissions.

The mutable, parent-pointer-based TypeScript classes are embedded as a pure
tree together with a path-indexed mutation engine.  A node's `_parent`
pointer is modelled by the boolean `parentLinked` on the child: `true` means
the node's `_parent` field points at its containing container (which is how
every link produced by `setParent` calls in the source is used), `false`
means the `_parent` field is unset.  Each `NodeData` additionally carries a
ghost `id : Nat` modelling JavaScript object identity; no operation ever
reads or rewrites it, so it lets per-object facts ("once dirty, never
pristine again") be stated about the functional tree.
-/

/-- Dynamic (JavaScript-like) values: `null`, booleans, numbers, strings,
string-keyed objects and arrays.  Leaf control values are scalars; a
`ControlGroup` aggregates to a `map`, a `ControlArray` to a `list`. -/
inductive Value where
  | null
  | bool (x : Bool)
  | int (n : Int)
  | str (s : String)
  | map (entries : List (String × Value))
  | list (elems : List Value)

/- Structural boolean equality on `Value` (hand-rolled because deriving
does not support the nested occurrence in `List`). -/
mutual
def Value.beq : Value → Value → Bool
  | .null, .null => true
  | .bool a, .bool b => a == b
  | .int a, .int b => a == b
  | .str a, .str b => a == b
  | .map a, .map b => Value.beqEntries a b
  | .list a, .list b => Value.beqList a b
  | _, _ => false
def Value.beqEntries : List (String × Value) → List (String × Value) → Bool
  | [], [] => true
  | (k, v) :: r, (k', v') :: r' => k == k' && Value.beq v v' && Value.beqEntries r r'
  | _, _ => false
def Value.beqList : List Value → List Value → Bool
  | [], [] => true
  | v :: r, v' :: r' => Value.beq v v' && Value.beqList r r'
  | _, _ => false
end

mutual
theorem Value.beq_iff : ∀ a b : Value, Value.beq a b = true ↔ a = b
  | .null, b => by cases b <;> simp [Value.beq]
  | .bool x, b => by cases b <;> simp [Value.beq]
  | .int n, b => by cases b <;> simp [Value.beq]
  | .str s, b => by cases b <;> simp [Value.beq]
  | .map e, b => by
      cases b <;> simp [Value.beq]
      exact Value.beqEntries_iff e _
  | .list l, b => by
      cases b <;> simp [Value.beq]
      exact Value.beqList_iff l _
theorem Value.beqEntries_iff :
    ∀ a b : List (String × Value), Value.beqEntries a b = true ↔ a = b
  | [], b => by cases b <;> simp [Value.beqEntries]
  | (k, v) :: r, b => by
      match b with
      | [] => simp [Value.beqEntries]
      | (k', v') :: r' =>
        simp [Value.beqEntries, Value.beq_iff v v', Value.beqEntries_iff r r',
          Prod.ext_iff, and_assoc]
theorem Value.beqList_iff :
    ∀ a b : List Value, Value.beqList a b = true ↔ a = b
  | [], b => by cases b <;> simp [Value.beqList]
  | v :: r, b => by
      match b with
      | [] => simp [Value.beqList]
      | v' :: r' =>
        simp [Value.beqList, Value.beq_iff v v', Value.beqList_iff r r']
end

instance : DecidableEq Value := fun a b => decidable_of_iff _ (Value.beq_iff a b)

/-- True exactly on the `null` value (the embedding of `isBlank`). -/
def Value.isNull : Value → Bool
  | .null => true
  | _ => false

/-- Status constant `VALID` from the source. -/
def VALID : String := "VALID"

/-- Status constant `INVALID` from the source. -/
def INVALID : String := "INVALID"

/-- An error map (`StringMap<string, any>`); `none` at the use sites below
models the absent (`null`) error map. -/
abbrev Errors := List (String × Value)

/-- The assignment `this._status = isPresent(this._errors) ? INVALID : VALID`
appearing verbatim in `updateValidity` and in both `_setValueErrorsStatus`
methods. -/
def statusOf (e : Option Errors) : String := if e.isSome then INVALID else VALID

/-- Lookup in a string-keyed map modelled as an association list in
insertion order (`controls[name]`, `StringMapWrapper.get`). -/
def lookupA {α : Type} : List (String × α) → String → Option α
  | [], _ => none
  | (k, v) :: r, n => if k == n then some v else lookupA r n

/-- Key assignment on a string-keyed map (`controls[name] = c`,
`StringMapWrapper.set`): replaces the binding in place if the key is
present, otherwise appends it, as JavaScript object assignment does. -/
def setA {α : Type} : List (String × α) → String → α → List (String × α)
  | [], n, x => [(n, x)]
  | (k, v) :: r, n, x => if k == n then (k, x) :: r else (k, v) :: setA r n x

/-- Key deletion on a string-keyed map (`StringMapWrapper.delete`). -/
def removeA {α : Type} : List (String × α) → String → List (String × α)
  | [], _ => []
  | (k, v) :: r, n => if k == n then r else (k, v) :: removeA r n

/-- `ListWrapper.insert` = `splice(index, 0, x)`: inserts at `i`, appending
when `i` is past the end (JavaScript splice clamps the index). -/
def listInsertAt {α : Type} (i : Nat) (x : α) (l : List α) : List α :=
  l.take i ++ x :: l.drop i

/-- `ListWrapper.removeAt` = `splice(index, 1)`: removes the element at `i`,
a no-op on the list when `i` is past the end. -/
def listRemoveAt {α : Type} (i : Nat) (l : List α) : List α :=
  l.take i ++ l.drop (i + 1)

/-- First-order syntax for the validator functions a node stores.  The
source treats validators as opaque pure functions `(control) -> errors`;
this closed grammar supplies: the two default container validators and the
leaf default (referenced from the missing `./validators` module), the
"reject null" leaf validator the spec's scenarios use, and arbitrary
constant validators. -/
inductive Validator where
  | nullValidator
  | rejectNull
  | group
  | array
  | constV (e : Option Errors)
deriving DecidableEq

/-- The per-node bookkeeping fields shared by all three node kinds
(`AbstractControl`'s `_value`, `_errors`, `_status`, `_pristine`,
`validator`), plus `parentLinked` modelling whether `_parent` is set to the
enclosing container, plus the ghost object identity `id`. -/
structure NodeData where
  id : Nat
  validator : Validator
  value : Value
  errors : Option Errors
  status : String
  pristine : Bool
  parentLinked : Bool

/-- The node hierarchy: `Control` (leaf), `ControlGroup` (children in a
string-keyed map `controls` plus the `_optionals` map), and `ControlArray`
(children in an ordered list `controls`). -/
inductive AbstractControl where
  | control (d : NodeData)
  | controlGroup (d : NodeData) (controls : List (String × AbstractControl))
      (optionals : List (String × Bool))
  | controlArray (d : NodeData) (controls : List AbstractControl)

/-- The shared bookkeeping fields of any node. -/
def AbstractControl.data : AbstractControl → NodeData
  | .control d => d
  | .controlGroup d _ _ => d
  | .controlArray d _ => d

/-- Getter `value`. -/
def AbstractControl.value (c : AbstractControl) : Value := c.data.value

/-- Getter `status`. -/
def AbstractControl.status (c : AbstractControl) : String := c.data.status

/-- Getter `errors`. -/
def AbstractControl.errors (c : AbstractControl) : Option Errors := c.data.errors

/-- Getter `pristine`. -/
def AbstractControl.pristine (c : AbstractControl) : Bool := c.data.pristine

/-- Getter `valid` (`this._status === VALID`). -/
def AbstractControl.valid (c : AbstractControl) : Bool := c.data.status == VALID

/-- Getter `dirty` (`!this.pristine`). -/
def AbstractControl.dirty (c : AbstractControl) : Bool := !c.data.pristine

/-- `isControl` from the source: a type test for tree nodes. -/
def isControl (_ : AbstractControl) : Bool := true

/-- `ControlGroup._included`: a child takes part in aggregation unless its
name is bound to `false` in `_optionals` (`!isOptional || get(optionals)`). -/
def _included (opts : List (String × Bool)) (name : String) : Bool :=
  match lookupA opts name with
  | none => true
  | some b => b

/-- The children of a group that `_reduceChildren` visits: the entries of
`controls`, in insertion order, whose names are `_included`. -/
def includedPairs (cs : List (String × AbstractControl))
    (opts : List (String × Bool)) : List (String × AbstractControl) :=
  cs.filter (fun p => _included opts p.1)

/-- `ControlGroup._reduceValue`: the mapping from each included child's name
to that child's current value, in iteration order. -/
def reduceValue (cs : List (String × AbstractControl))
    (opts : List (String × Bool)) : Value :=
  Value.map ((includedPairs cs opts).map (fun p => (p.1, p.2.value)))

/-- Evaluation of a stored validator on a node.  `constV` and `rejectNull`
stand for caller-supplied validators.  Modelled from the spec: the default
validators `Validators.nullValidator` (no errors), `Validators.group` and
`Validators.array` (container invalid iff at least one included child is
invalid) live in the `./validators` module that the source imports but that
is outside this file's sources; their aggregation rule is taken from the
spec's default-policy wording. -/
def Validator.eval : Validator → AbstractControl → Option Errors
  | .constV e, _ => e
  | .nullValidator, _ => none
  | .rejectNull, c => if c.value.isNull then some [("required", .bool true)] else none
  | .group, .controlGroup _ cs opts =>
      if (includedPairs cs opts).all (fun p => p.2.valid) then none
      else some [("group", .bool true)]
  | .group, _ => none
  | .array, .controlArray _ cs =>
      if cs.all (fun c => c.valid) then none
      else some [("array", .bool true)]
  | .array, _ => none

/-- One step of a path from a container to a child: a `controls` key for a
`ControlGroup`, a position for a `ControlArray`. -/
inductive PathStep where
  | key (s : String)
  | idx (i : Nat)
deriving DecidableEq

/-- One emission on a node's `valueChanges` channel
(`ObservableWrapper.callNext(this._valueChanges, this._value)`): the path of
the emitting node (relative to the tree the operation ran on) and the value
carried. -/
abbrev Emission := List PathStep × Value

/-- Re-bases emissions produced inside a child one level down. -/
def consPath (st : PathStep) (ems : List Emission) : List Emission :=
  ems.map (fun e => (st :: e.1, e.2))

/-- `setParent(parent)` as observed through the model: marks the child's
`_parent` pointer as set to its containing container. -/
def setParentLink : AbstractControl → AbstractControl
  | .control d => .control { d with parentLinked := true }
  | .controlGroup d cs opts => .controlGroup { d with parentLinked := true } cs opts
  | .controlArray d cs => .controlArray { d with parentLinked := true } cs

/-- `ControlGroup._setValueErrorsStatus`: `_value := _reduceValue()`, then
`_errors := validator(this)` (the validator sees the node with its new
value), then the status rule. -/
def groupSetVES (d : NodeData) (cs : List (String × AbstractControl))
    (opts : List (String × Bool)) : NodeData :=
  let v := reduceValue cs opts
  let e := Validator.eval d.validator (.controlGroup { d with value := v } cs opts)
  { d with value := v, errors := e, status := statusOf e }

/-- `ControlArray._setValueErrorsStatus`: `_value := map(controls, value)`,
then errors, then status. -/
def arraySetVES (d : NodeData) (cs : List AbstractControl) : NodeData :=
  let v := Value.list (cs.map AbstractControl.value)
  let e := Validator.eval d.validator (.controlArray { d with value := v } cs)
  { d with value := v, errors := e, status := statusOf e }

/-- `ControlGroup._updateValue`: `_setValueErrorsStatus()`, mark dirty, emit
the new value (the subsequent `_updateParent()` call is performed by the
engine `runAt` below using the returned node's `parentLinked`). -/
def groupUpdValue (d : NodeData) (cs : List (String × AbstractControl))
    (opts : List (String × Bool)) : AbstractControl × Emission :=
  let d1 := { groupSetVES d cs opts with pristine := false }
  (.controlGroup d1 cs opts, ([], d1.value))

/-- `ControlArray._updateValue`: same shape as the group's. -/
def arrayUpdValue (d : NodeData) (cs : List AbstractControl) :
    AbstractControl × Emission :=
  let d1 := { arraySetVES d cs with pristine := false }
  (.controlArray d1 cs, ([], d1.value))

/-- The body of `AbstractControl.updateValidity` acting on one node:
`_errors := validator(this); _status := ...` (the recursive
`parent.updateValidity()` call is performed by the engine). -/
def nodeUpdValidity (c : AbstractControl) : AbstractControl :=
  let e := Validator.eval c.data.validator c
  match c with
  | .control d => .control { d with errors := e, status := statusOf e }
  | .controlGroup d cs opts =>
      .controlGroup { d with errors := e, status := statusOf e } cs opts
  | .controlArray d cs => .controlArray { d with errors := e, status := statusOf e } cs

/-- The public operations of the model, applied by `runAt` at the node a
path designates. -/
inductive LocalOp where
  | updateValue (v : Value)
  | push (c : AbstractControl)
  | insert (i : Nat) (c : AbstractControl)
  | removeAt (i : Nat)
  | include (name : String)
  | exclude (name : String)
  | addControl (name : String) (c : AbstractControl)
  | removeControl (name : String)
  | updateValidity

/-- Whether the operation's upward propagation is the `_updateParent` /
`_updateValue` chain (all mutations) or the validity-only
`parent.updateValidity()` chain. -/
def opChain : LocalOp → Bool
  | .updateValidity => false
  | _ => true

/-- The effect of one operation on the node it targets, following the
source method bodies.  Returns the new node, its own emissions (paths
relative to the node), and whether the node went on to call its parent
(`isPresent(this._parent)`, i.e. `parentLinked`).  `none` models calling a
method the receiving class does not define. -/
def applyLocal : LocalOp → AbstractControl → Option (AbstractControl × List Emission × Bool)
  | .updateValue v, .control d =>
      let d1 := { d with value := v }
      let e := Validator.eval d1.validator (.control d1)
      let d2 := { d1 with errors := e, status := statusOf e, pristine := false }
      some (.control d2, [([], d2.value)], d2.parentLinked)
  | .push c, .controlArray d cs =>
      let r := arrayUpdValue d (cs ++ [setParentLink c])
      some (r.1, [r.2], d.parentLinked)
  | .insert i c, .controlArray d cs =>
      let r := arrayUpdValue d (listInsertAt i (setParentLink c) cs)
      some (r.1, [r.2], d.parentLinked)
  | .removeAt i, .controlArray d cs =>
      let r := arrayUpdValue d (listRemoveAt i cs)
      some (r.1, [r.2], d.parentLinked)
  | .include n, .controlGroup d cs opts =>
      let r := groupUpdValue d cs (setA opts n true)
      some (r.1, [r.2], d.parentLinked)
  | .exclude n, .controlGroup d cs opts =>
      let r := groupUpdValue d cs (setA opts n false)
      some (r.1, [r.2], d.parentLinked)
  | .addControl n c, .controlGroup d cs opts =>
      some (.controlGroup d (setA cs n c) opts, [], false)
  | .removeControl n, .controlGroup d cs opts =>
      some (.controlGroup d (removeA cs n) opts, [], false)
  | .updateValidity, c => some (nodeUpdValidity c, [], c.data.parentLinked)
  | _, _ => none

/-- The mutation engine: descends along `path` to the target node, applies
the operation there, and replays the source's upward propagation while
unwinding — when the updated child reports that it called its parent, the
enclosing container runs `_updateValue` (for mutations) or
`updateValidity` (for the validity walk) and in turn reports via its own
`parentLinked`.  Emissions are collected in the order the source produces
them: child first, then each ancestor on the way to the root. -/
def runAt (op : LocalOp) : List PathStep → AbstractControl → Option (AbstractControl × List Emission × Bool)
  | [], c => applyLocal op c
  | .key s :: p, .controlGroup d cs opts =>
      match lookupA cs s with
      | none => none
      | some child =>
          match runAt op p child with
          | none => none
          | some (child', ems, up) =>
              let cs' := setA cs s child'
              if up then
                if opChain op then
                  let r := groupUpdValue d cs' opts
                  some (r.1, consPath (.key s) ems ++ [r.2], d.parentLinked)
                else
                  some (nodeUpdValidity (.controlGroup d cs' opts),
                    consPath (.key s) ems, d.parentLinked)
              else
                some (.controlGroup d cs' opts, consPath (.key s) ems, false)
  | .idx i :: p, .controlArray d cs =>
      match cs[i]? with
      | none => none
      | some child =>
          match runAt op p child with
          | none => none
          | some (child', ems, up) =>
              let cs' := cs.set i child'
              if up then
                if opChain op then
                  let r := arrayUpdValue d cs'
                  some (r.1, consPath (.idx i) ems ++ [r.2], d.parentLinked)
                else
                  some (nodeUpdValidity (.controlArray d cs'),
                    consPath (.idx i) ems, d.parentLinked)
              else
                some (.controlArray d cs', consPath (.idx i) ems, false)
  | _, _ => none

/-- The `Control` constructor: `super(validator)` sets `_pristine = true`,
then `_setValueErrorsStatus(value)`.  `i` is the ghost identity. -/
def mkControl (i : Nat) (v : Value) (validator : Validator) : AbstractControl :=
  let d0 : NodeData :=
    { id := i, validator := validator, value := Value.null, errors := none,
      status := "", pristine := true, parentLinked := false }
  let d1 := { d0 with value := v }
  let e := Validator.eval validator (.control d1)
  .control { d1 with errors := e, status := statusOf e }

/-- The `ControlGroup` constructor: store `controls` and `_optionals`
(defaulting to the empty map), `_setParentForControls()` (link every child),
then `_setValueErrorsStatus()`. -/
def mkControlGroup (i : Nat) (cs : List (String × AbstractControl))
    (opts : Option (List (String × Bool))) (validator : Validator) : AbstractControl :=
  let cs1 := cs.map (fun p => (p.1, setParentLink p.2))
  let optsV := opts.getD []
  let d0 : NodeData :=
    { id := i, validator := validator, value := Value.null, errors := none,
      status := "", pristine := true, parentLinked := false }
  .controlGroup (groupSetVES d0 cs1 optsV) cs1 optsV

/-- The `ControlArray` constructor: store `controls`, link every child,
then `_setValueErrorsStatus()`. -/
def mkControlArray (i : Nat) (cs : List AbstractControl)
    (validator : Validator) : AbstractControl :=
  let cs1 := cs.map setParentLink
  let d0 : NodeData :=
    { id := i, validator := validator, value := Value.null, errors := none,
      status := "", pristine := true, parentLinked := false }
  .controlArray (arraySetVES d0 cs1) cs1

/-- `ControlGroup.contains`: the name is a key of `controls` and the child
is currently included. -/
def groupContains (cs : List (String × AbstractControl))
    (opts : List (String × Bool)) (n : String) : Bool :=
  (lookupA cs n).isSome && _included opts n

/-- `ControlArray.at`: position access on `controls` (`none` models the
out-of-range `undefined`). -/
def arrayAt (cs : List AbstractControl) (i : Nat) : Option AbstractControl := cs[i]?

/-- One reduction step of `ControlGroup.find`:
`v instanceof ControlGroup && isPresent(v.controls[name]) ? v.controls[name] : null`. -/
def findStep : Option AbstractControl → String → Option AbstractControl
  | some (.controlGroup _ cs _), name =>
      match lookupA cs name with
      | some child => some child
      | none => none
  | _, _ => none

/-- `ControlGroup.find` on a list of segment names, as the source's
`ListWrapper.reduce` of `findStep` starting from the receiver. -/
def find (c : AbstractControl) (path : List String) : Option AbstractControl :=
  path.foldl findStep (some c)

/-- Split on `/`, the `StringWrapper.split(path, RegExp("/"))` of the
string form of `find` (JavaScript `String.split` keeps empty segments). -/
def splitSlashAux : List Char → List Char → List String
  | [], acc => [String.mk acc.reverse]
  | ch :: r, acc =>
      if ch == '/' then String.mk acc.reverse :: splitSlashAux r []
      else splitSlashAux r (ch :: acc)

/-- Split a path string on `/`. -/
def splitSlash (s : String) : List String := splitSlashAux s.toList []

/-- `ControlGroup.find` on a string path. -/
def findString (c : AbstractControl) (s : String) : Option AbstractControl :=
  find c (splitSlash s)

/-- The walk the spec describes for `find`, written as direct recursion on
the segments: at each step descend iff the current node is a keyed
container with a child under the next segment name, otherwise yield absent.
Stated from the spec's words, to be compared with `find` above. -/
def descendWalk : List String → AbstractControl → Option AbstractControl
  | [], c => some c
  | n :: p, .controlGroup _ cs _ =>
      match lookupA cs n with
      | some child => descendWalk p child
      | none => none
  | _ :: _, _ => none

/-- The node's derived fields are fresh: `errors` is exactly what invoking
its own validator on the node yields now, and `status` follows the
errors-present rule. -/
def nodeFresh (c : AbstractControl) : Bool :=
  (c.data.errors == Validator.eval c.data.validator c) &&
    (c.data.status == statusOf c.data.errors)

/-- The kind-specific aggregation of a node's current children's values: a
leaf aggregates to its own value, a group to the mapping of its included
children, an array to the ordered sequence of its children. -/
def aggValue : AbstractControl → Value
  | .control d => d.value
  | .controlGroup _ cs opts => reduceValue cs opts
  | .controlArray _ cs => Value.list (cs.map AbstractControl.value)

/-- One node is internally consistent: its stored value is the aggregation
of its children's current values and its errors/status are fresh. -/
def localConsistentB (c : AbstractControl) : Bool :=
  (c.data.value == aggValue c) && nodeFresh c

/- Every node of the tree is internally consistent. -/
mutual
def consistentB : AbstractControl → Bool
  | .control d => localConsistentB (.control d)
  | .controlGroup d cs opts =>
      localConsistentB (.controlGroup d cs opts) && consistentPairsB cs
  | .controlArray d cs => localConsistentB (.controlArray d cs) && consistentListB cs
def consistentPairsB : List (String × AbstractControl) → Bool
  | [] => true
  | (_, c) :: r => consistentB c && consistentPairsB r
def consistentListB : List AbstractControl → Bool
  | [] => true
  | c :: r => consistentB c && consistentListB r
end

/-- The status invariant on one node's fields: `status == INVALID` iff the
errors map is present, and the status is one of the two constants. -/
def nodeStatusOK (d : NodeData) : Bool :=
  ((d.status == INVALID) == d.errors.isSome) &&
    (d.status == VALID || d.status == INVALID)

/- The status invariant holds at every node of the tree. -/
mutual
def statusInvB : AbstractControl → Bool
  | .control d => nodeStatusOK d
  | .controlGroup d cs _ => nodeStatusOK d && statusInvPairsB cs
  | .controlArray d cs => nodeStatusOK d && statusInvListB cs
def statusInvPairsB : List (String × AbstractControl) → Bool
  | [] => true
  | (_, c) :: r => statusInvB c && statusInvPairsB r
def statusInvListB : List AbstractControl → Bool
  | [] => true
  | c :: r => statusInvB c && statusInvListB r
end

/- Every child in the tree has its `_parent` pointer set to its container
(the state the constructors and `push`/`insert` maintain). -/
mutual
def wellLinkedB : AbstractControl → Bool
  | .control _ => true
  | .controlGroup _ cs _ => wellLinkedPairsB cs
  | .controlArray _ cs => wellLinkedListB cs
def wellLinkedPairsB : List (String × AbstractControl) → Bool
  | [] => true
  | (_, c) :: r => c.data.parentLinked && wellLinkedB c && wellLinkedPairsB r
def wellLinkedListB : List AbstractControl → Bool
  | [] => true
  | c :: r => c.data.parentLinked && wellLinkedB c && wellLinkedListB r
end

/- The bookkeeping records of all nodes of a tree, in preorder. -/
mutual
def dataList : AbstractControl → List NodeData
  | .control d => [d]
  | .controlGroup d cs _ => d :: dataListPairs cs
  | .controlArray d cs => d :: dataListL cs
def dataListPairs : List (String × AbstractControl) → List NodeData
  | [] => []
  | (_, c) :: r => dataList c ++ dataListPairs r
def dataListL : List AbstractControl → List NodeData
  | [] => []
  | c :: r => dataList c ++ dataListL r
end

/-- The ghost identities of all nodes of a tree. -/
def idsOf (c : AbstractControl) : List Nat := (dataList c).map NodeData.id

/- The tree with every node's `errors` and `status` erased: two trees with
equal skeletons agree on everything except those two derived fields. -/
mutual
def skeleton : AbstractControl → AbstractControl
  | .control d => .control { d with errors := none, status := "" }
  | .controlGroup d cs opts =>
      .controlGroup { d with errors := none, status := "" } (skeletonPairs cs) opts
  | .controlArray d cs =>
      .controlArray { d with errors := none, status := "" } (skeletonL cs)
def skeletonPairs : List (String × AbstractControl) → List (String × AbstractControl)
  | [] => []
  | (k, c) :: r => (k, skeleton c) :: skeletonPairs r
def skeletonL : List AbstractControl → List AbstractControl
  | [] => []
  | c :: r => skeleton c :: skeletonL r
end

/-- The node a path designates. -/
def nodeAt : List PathStep → AbstractControl → Option AbstractControl
  | [], c => some c
  | .key s :: p, .controlGroup _ cs _ =>
      match lookupA cs s with
      | some child => nodeAt p child
      | none => none
  | .idx i :: p, .controlArray _ cs =>
      match cs[i]? with
      | some child => nodeAt p child
      | none => none
  | _, _ => none

/-- The path exists and every node stepped into along it has its `_parent`
pointer set (so each upward call in a propagation chain actually fires). -/
def linkedAlong : List PathStep → AbstractControl → Bool
  | [], _ => true
  | .key s :: p, .controlGroup _ cs _ =>
      match lookupA cs s with
      | some child => child.data.parentLinked && linkedAlong p child
      | none => false
  | .idx i :: p, .controlArray _ cs =>
      match cs[i]? with
      | some child => child.data.parentLinked && linkedAlong p child
      | none => false
  | _, _ => false

/-- The path designates a leaf `Control` of the tree. -/
def leafPathB (p : List PathStep) (c : AbstractControl) : Bool :=
  match nodeAt p c with
  | some (.control _) => true
  | _ => false

/-- Every node on the chain from this node down to the target of the path —
the nodes an upward walk from the target visits — has fresh
errors/status. -/
def chainFresh : List PathStep → AbstractControl → Bool
  | [], c => nodeFresh c
  | .key s :: p, .controlGroup d cs opts =>
      nodeFresh (.controlGroup d cs opts) &&
        (match lookupA cs s with
         | some child => chainFresh p child
         | none => false)
  | .idx i :: p, .controlArray d cs =>
      nodeFresh (.controlArray d cs) &&
        (match cs[i]? with
         | some child => chainFresh p child
         | none => false)
  | _, _ => false

/-- `visitsB p q`: the node at `q` is on the visited chain of an operation
run at `p`, i.e. `q` is a prefix of `p` (the target and its ancestors). -/
def visitsB : List PathStep → List PathStep → Bool
  | _, [] => true
  | [], _ :: _ => false
  | a :: p, b :: q => a == b && visitsB p q

/-- The mutations named by the consistency claim: everything except
`addControl` / `removeControl` (which recompute nothing) and the
validity-only walk. -/
def opAllowed : LocalOp → Bool
  | .updateValue _ => true
  | .push _ => true
  | .insert _ _ => true
  | .removeAt _ => true
  | .include _ => true
  | .exclude _ => true
  | _ => false

/-- The nodes an operation injects into the tree. -/
def injData : LocalOp → List NodeData
  | .push c => dataList c
  | .insert _ c => dataList c
  | .addControl _ c => dataList c
  | _ => []

/-- Any control an operation injects is itself consistent and well
linked. -/
def injConsistent : LocalOp → Bool
  | .push c => consistentB c && wellLinkedB c
  | .insert _ c => consistentB c && wellLinkedB c
  | _ => true

/-- Any control an operation injects satisfies the status invariant. -/
def injStatusInv : LocalOp → Bool
  | .push c => statusInvB c
  | .insert _ c => statusInvB c
  | .addControl _ c => statusInvB c
  | _ => true

/-- A group with one valid leaf child, used by the consistency
counterexample. -/
def cexTreeC1 : AbstractControl :=
  mkControlGroup 0 [("a", mkControl 1 (.int 1) .rejectNull)] none .group

/-- The state of that group right after `addControl("b", new Control(2))`
returns. -/
def cexAfterC1 : Option (AbstractControl × List Emission × Bool) :=
  runAt (.addControl "b" (mkControl 2 (.int 2) .rejectNull)) [] cexTreeC1

/-- A three-level tree: leaf `l` inside group `m` inside the root group. -/
def c4Root : AbstractControl :=
  mkControlGroup 0
    [("m", mkControlGroup 1 [("l", mkControl 2 (.int 5) .rejectNull)] none .group)]
    none .group

/-- One leaf mutation on the three-level tree. -/
def c4Run : Option (AbstractControl × List Emission × Bool) :=
  runAt (.updateValue (.int 7)) [.key "m", .key "l"] c4Root

/-- The spec's Scenario B group: `{a: Control(1), b: Control(null)}` with
`b`'s validator rejecting null and the default group validator. -/
def scGroupB : AbstractControl :=
  mkControlGroup 12
    [("a", mkControl 10 (.int 1) .nullValidator),
     ("b", mkControl 11 .null .rejectNull)]
    none .group

/-- The spec's Scenario F tree: root containing group `a` containing group
`b`. -/
def sfRoot : AbstractControl :=
  mkControlGroup 22 [("a", mkControlGroup 21 [("b", mkControlGroup 20 [] none .group)] none .group)] none .group

/-- The three-level tree after one leaf mutation has already marked the
whole chain dirty (used to witness pristine monotonicity). -/
def c7Dirty : AbstractControl :=
  ((runAt (.updateValue (.int 9)) [.key "m", .key "l"] c4Root).map
    (fun r => r.1)).getD c4Root

/-- The `controls` map of a group node (empty for other kinds). -/
def groupControls : AbstractControl → List (String × AbstractControl)
  | .controlGroup _ cs _ => cs
  | _ => []

/-- The `_optionals` map of a group node (empty for other kinds). -/
def groupOptionals : AbstractControl → List (String × Bool)
  | .controlGroup _ _ opts => opts
  | _ => []

theorem consistentPairsB_eq :
    ∀ cs : List (String × AbstractControl),
      consistentPairsB cs = cs.all (fun p => consistentB p.2)
  | [] => by simp [consistentPairsB]
  | (k, c) :: r => by simp [consistentPairsB, consistentPairsB_eq r]

theorem consistentListB_eq :
    ∀ cs : List AbstractControl, consistentListB cs = cs.all (fun c => consistentB c)
  | [] => by simp [consistentListB]
  | c :: r => by simp [consistentListB, consistentListB_eq r]

theorem statusInvPairsB_eq :
    ∀ cs : List (String × AbstractControl),
      statusInvPairsB cs = cs.all (fun p => statusInvB p.2)
  | [] => by simp [statusInvPairsB]
  | (k, c) :: r => by simp [statusInvPairsB, statusInvPairsB_eq r]

theorem statusInvListB_eq :
    ∀ cs : List AbstractControl, statusInvListB cs = cs.all (fun c => statusInvB c)
  | [] => by simp [statusInvListB]
  | c :: r => by simp [statusInvListB, statusInvListB_eq r]

theorem wellLinkedPairsB_eq :
    ∀ cs : List (String × AbstractControl),
      wellLinkedPairsB cs = cs.all (fun p => p.2.data.parentLinked && wellLinkedB p.2)
  | [] => by simp [wellLinkedPairsB]
  | (k, c) :: r => by simp [wellLinkedPairsB, wellLinkedPairsB_eq r, Bool.and_assoc]

theorem wellLinkedListB_eq :
    ∀ cs : List AbstractControl,
      wellLinkedListB cs = cs.all (fun c => c.data.parentLinked && wellLinkedB c)
  | [] => by simp [wellLinkedListB]
  | c :: r => by simp [wellLinkedListB, wellLinkedListB_eq r, Bool.and_assoc]

theorem mem_dataListPairs {d : NodeData} :
    ∀ {cs : List (String × AbstractControl)},
      d ∈ dataListPairs cs ↔ ∃ p ∈ cs, d ∈ dataList p.2
  | [] => by simp [dataListPairs]
  | (k, c) :: r => by
      simp [dataListPairs, @mem_dataListPairs d r]

theorem mem_dataListL {d : NodeData} :
    ∀ {cs : List AbstractControl}, d ∈ dataListL cs ↔ ∃ c ∈ cs, d ∈ dataList c
  | [] => by simp [dataListL]
  | c :: r => by simp [dataListL, @mem_dataListL d r]

theorem lookupA_setA_self {α : Type} (k : String) (x : α) :
    ∀ l : List (String × α), lookupA (setA l k x) k = some x
  | [] => by simp [setA, lookupA]
  | (k', v) :: r => by
      by_cases h : k' = k
      · simp [setA, lookupA, h]
      · have hb : (k' == k) = false := by simp [h]
        simp [setA, lookupA, hb, lookupA_setA_self k x r]

theorem lookupA_setA_ne {α : Type} (k n : String) (x : α) (hne : n ≠ k) :
    ∀ l : List (String × α), lookupA (setA l k x) n = lookupA l n
  | [] => by
      have hb : (k == n) = false := beq_eq_false_iff_ne.mpr (Ne.symm hne)
      simp [setA, lookupA, hb]
  | (k', v) :: r => by
      by_cases h : k' = k
      · subst h
        have hb : (k' == n) = false := beq_eq_false_iff_ne.mpr (Ne.symm hne)
        simp [setA, lookupA, hb]
      · have hb : (k' == k) = false := by simp [h]
        simp [setA, lookupA, hb, lookupA_setA_ne k n x hne r]

theorem mem_setA {α : Type} (k : String) (x : α) :
    ∀ (l : List (String × α)) (p : String × α), p ∈ setA l k x → p.2 = x ∨ p ∈ l
  | [], p, h => by
      simp [setA] at h
      subst h
      exact Or.inl rfl
  | (k', v) :: r, p, h => by
      by_cases hk : k' = k
      · simp [setA, hk] at h
        rcases h with h | h
        · subst h
          exact Or.inl rfl
        · exact Or.inr (List.mem_cons_of_mem _ h)
      · have hb : (k' == k) = false := by simp [hk]
        simp [setA, hb] at h
        rcases h with h | h
        · subst h
          exact Or.inr (List.mem_cons_self _ _)
        · rcases mem_setA k x r p h with h' | h'
          · exact Or.inl h'
          · exact Or.inr (List.mem_cons_of_mem _ h')

theorem mem_removeA {α : Type} (k : String) :
    ∀ (l : List (String × α)) (p : String × α), p ∈ removeA l k → p ∈ l
  | [], p, h => by simp [removeA] at h
  | (k', v) :: r, p, h => by
      by_cases hk : k' = k
      · simp [removeA, hk] at h
        exact List.mem_cons_of_mem _ h
      · have hb : (k' == k) = false := by simp [hk]
        simp [removeA, hb] at h
        rcases h with h | h
        · exact h ▸ List.mem_cons_self _ _
        · exact List.mem_cons_of_mem _ (mem_removeA k r p h)

theorem mem_listInsertAt {α : Type} (i : Nat) (x : α) (l : List α) (a : α)
    (h : a ∈ listInsertAt i x l) : a = x ∨ a ∈ l := by
  simp [listInsertAt] at h
  rcases h with h | h | h
  · exact Or.inr (List.take_subset i l h)
  · exact Or.inl h
  · exact Or.inr (List.drop_subset i l h)

theorem mem_listRemoveAt {α : Type} (i : Nat) (l : List α) (a : α)
    (h : a ∈ listRemoveAt i l) : a ∈ l := by
  simp [listRemoveAt] at h
  rcases h with h | h
  · exact List.take_subset i l h
  · exact List.drop_subset (i + 1) l h

theorem eval_congr_control (va : Validator) (d d' : NodeData)
    (h : d.value = d'.value) :
    Validator.eval va (.control d) = Validator.eval va (.control d') := by
  cases va <;> simp [Validator.eval, AbstractControl.value, AbstractControl.data, h]

theorem eval_congr_group (va : Validator) (d d' : NodeData)
    (cs : List (String × AbstractControl)) (opts : List (String × Bool))
    (h : d.value = d'.value) :
    Validator.eval va (.controlGroup d cs opts) =
      Validator.eval va (.controlGroup d' cs opts) := by
  cases va <;> simp [Validator.eval, AbstractControl.value, AbstractControl.data, h]

theorem eval_congr_array (va : Validator) (d d' : NodeData)
    (cs : List AbstractControl) (h : d.value = d'.value) :
    Validator.eval va (.controlArray d cs) =
      Validator.eval va (.controlArray d' cs) := by
  cases va <;> simp [Validator.eval, AbstractControl.value, AbstractControl.data, h]

theorem nodeStatusOK_of (d : NodeData) (h : d.status = statusOf d.errors) :
    nodeStatusOK d = true := by
  cases hd : d.errors <;> simp [nodeStatusOK, h, hd, statusOf, VALID, INVALID]

theorem data_setParentLink (c : AbstractControl) :
    (setParentLink c).data = { c.data with parentLinked := true } := by
  cases c <;> simp [setParentLink, AbstractControl.data]

theorem foldl_findStep_none : ∀ path : List String, path.foldl findStep none = none
  | [] => rfl
  | _ :: p => by simp [List.foldl, findStep, foldl_findStep_none p]

theorem find_eq_descendWalk :
    ∀ (path : List String) (c : AbstractControl), find c path = descendWalk path c
  | [], c => rfl
  | n :: p, c => by
      cases c with
      | control d =>
          simp [find, List.foldl, findStep, descendWalk, foldl_findStep_none p]
      | controlGroup d cs opts =>
          cases hlk : lookupA cs n with
          | none =>
              simp [find, List.foldl, findStep, hlk, descendWalk,
                foldl_findStep_none p]
          | some child =>
              simpa [find, List.foldl, findStep, hlk, descendWalk] using
                find_eq_descendWalk p child
      | controlArray d cs =>
          simp [find, List.foldl, findStep, descendWalk, foldl_findStep_none p]

theorem updateValue_total :
    ∀ (p : List PathStep) (t : AbstractControl) (v : Value),
      leafPathB p t = true → (runAt (.updateValue v) p t).isSome = true
  | [], t, v, h => by
      cases t with
      | control d => simp [runAt, applyLocal]
      | controlGroup d cs opts => simp [leafPathB, nodeAt] at h
      | controlArray d cs => simp [leafPathB, nodeAt] at h
  | .key s :: p, t, v, h => by
      cases t with
      | control d => simp [leafPathB, nodeAt] at h
      | controlGroup d cs opts =>
          cases hlk : lookupA cs s with
          | none => simp [leafPathB, nodeAt, hlk] at h
          | some child =>
              have hc : leafPathB p child = true := by
                simpa [leafPathB, nodeAt, hlk] using h
              have ih := updateValue_total p child v hc
              cases hrun : runAt (.updateValue v) p child with
              | none => simp [hrun] at ih
              | some r =>
                  obtain ⟨c', ems, up⟩ := r
                  cases up <;> simp [runAt, hlk, hrun, opChain]
      | controlArray d cs => simp [leafPathB, nodeAt] at h
  | .idx i :: p, t, v, h => by
      cases t with
      | control d => simp [leafPathB, nodeAt] at h
      | controlGroup d cs opts => simp [leafPathB, nodeAt] at h
      | controlArray d cs =>
          cases hlk : cs[i]? with
          | none => simp [leafPathB, nodeAt, hlk] at h
          | some child =>
              have hc : leafPathB p child = true := by
                simpa [leafPathB, nodeAt, hlk] using h
              have ih := updateValue_total p child v hc
              cases hrun : runAt (.updateValue v) p child with
              | none => simp [hrun] at ih
              | some r =>
                  obtain ⟨c', ems, up⟩ := r
                  cases up <;> simp [runAt, hlk, hrun, opChain]

/-- C4: on the three-level tree (leaf `l` in group `m` in the root group),
one `updateValue` on the leaf produces exactly three emissions, in
leaf-to-middle-to-root order, each carrying the emitting node's new value
(equal to that node's value in the resulting tree), all collected before
the call returns. -/
theorem claim_C4 :
    c4Run.map (fun r => r.2.1) =
      some [([.key "m", .key "l"], .int 7),
            ([.key "m"], .map [("l", .int 7)]),
            ([], .map [("m", .map [("l", .int 7)])])] ∧
    c4Run.map (fun r =>
        ((nodeAt [.key "m", .key "l"] r.1).map AbstractControl.value,
         (nodeAt [.key "m"] r.1).map AbstractControl.value,
         (nodeAt [] r.1).map AbstractControl.value)) =
      some (some (.int 7), some (.map [("l", .int 7)]),
        some (.map [("m", .map [("l", .int 7)])])) :=
  ⟨by decide, by decide⟩

/-- C6: `Control.updateValue` sets the value, recomputes errors and status
by invoking the validator on the node carrying the new value, marks
`pristine` false, emits the new value on the change channel, and reports to
its parent exactly when its `_parent` pointer is set; and for every tree,
every path to a leaf and every input value, the operation succeeds — no
input is ever rejected. -/
theorem claim_C6 :
    (∀ (d : NodeData) (v : Value),
      runAt (.updateValue v) [] (.control d) =
        some (.control
            { d with
              value := v
              errors := Validator.eval d.validator (.control { d with value := v })
              status :=
                statusOf (Validator.eval d.validator (.control { d with value := v }))
              pristine := false },
          [([], v)], d.parentLinked)) ∧
    (∀ (p : List PathStep) (t : AbstractControl) (v : Value),
      leafPathB p t = true → (runAt (.updateValue v) p t).isSome = true) :=
  ⟨fun _ _ => rfl, fun p t v h => updateValue_total p t v h⟩

theorem claim_C6_witness :
    leafPathB [.key "m", .key "l"] c4Root = true ∧
      (runAt (.updateValue Value.null) [.key "m", .key "l"] c4Root).isSome = true :=
  ⟨by decide, claim_C6.2 [.key "m", .key "l"] c4Root Value.null (by decide)⟩

/-- C8: `ControlGroup.addControl` inserts or replaces the child under the
name and `removeControl` deletes the entry; neither touches the child's
`_parent` pointer, the container's own value/errors/status/pristine fields,
emits anything, or calls up — in contrast with `ControlArray.push`, which
re-parents the new child, recomputes, emits and propagates. -/
theorem claim_C8 :
    (∀ (d : NodeData) (cs : List (String × AbstractControl))
        (opts : List (String × Bool)) (n : String) (c : AbstractControl),
      runAt (.addControl n c) [] (.controlGroup d cs opts) =
        some (.controlGroup d (setA cs n c) opts, [], false)) ∧
    (∀ (d : NodeData) (cs : List (String × AbstractControl))
        (opts : List (String × Bool)) (n : String),
      runAt (.removeControl n) [] (.controlGroup d cs opts) =
        some (.controlGroup d (removeA cs n) opts, [], false)) ∧
    (∀ (d : NodeData) (cs : List AbstractControl) (c : AbstractControl),
      runAt (.push c) [] (.controlArray d cs) =
        some (.controlArray
            { arraySetVES d (cs ++ [setParentLink c]) with pristine := false }
            (cs ++ [setParentLink c]),
          [([], (arraySetVES d (cs ++ [setParentLink c])).value)],
          d.parentLinked)) :=
  ⟨fun _ _ _ _ _ => rfl, fun _ _ _ _ => rfl, fun _ _ _ => rfl⟩

/-- C9: `find` walks segment by segment from the receiver, descending
exactly when the current node is a `ControlGroup` having a child under the
next segment name and yielding `none` otherwise (the direct recursion
`descendWalk` stated from the spec), and on the Scenario F tree the string
path `a/b` finds the nested group `b` while `a/x` yields absent. -/
theorem claim_C9 :
    (∀ (c : AbstractControl) (path : List String), find c path = descendWalk path c) ∧
    (findString sfRoot "a/b").map (fun c => c.data.id) = some 20 ∧
    findString sfRoot "a/x" = none :=
  ⟨fun c path => find_eq_descendWalk path c, by decide, by rfl⟩

theorem lookupA_mem {α : Type} {n : String} {x : α} :
    ∀ {l : List (String × α)}, lookupA l n = some x → ∃ k, (k, x) ∈ l
  | [], h => by simp [lookupA] at h
  | (k', v) :: r, h => by
      by_cases hk : (k' == n) = true
      · simp [lookupA, hk] at h
        exact ⟨k', by simp [h]⟩
      · simp [lookupA, hk] at h
        obtain ⟨k, hm⟩ := @lookupA_mem _ n x r h
        exact ⟨k, List.mem_cons_of_mem _ hm⟩

theorem statusInvB_setParentLink (c : AbstractControl) :
    statusInvB (setParentLink c) = statusInvB c := by
  cases c <;> simp [setParentLink, statusInvB, nodeStatusOK]

theorem statusInv_runAt :
    ∀ (p : List PathStep) (op : LocalOp) (t t' : AbstractControl)
      (ems : List Emission) (u : Bool),
      statusInvB t = true → injStatusInv op = true →
      runAt op p t = some (t', ems, u) → statusInvB t' = true
  | [], op, t, t', ems, u, ht, hinj, hrun => by
      cases op with
      | updateValue v =>
          cases t <;> simp [runAt, applyLocal] at hrun
          obtain ⟨h1, -, -⟩ := hrun
          subst h1
          simp [statusInvB]
          exact nodeStatusOK_of _ rfl
      | push c =>
          cases t with
          | control d => simp [runAt, applyLocal] at hrun
          | controlGroup d cs opts => simp [runAt, applyLocal] at hrun
          | controlArray d cs =>
              simp [runAt, applyLocal, arrayUpdValue] at hrun
              obtain ⟨h1, -, -⟩ := hrun
              subst h1
              simp [statusInvB, Bool.and_eq_true] at ht ⊢
              refine ⟨nodeStatusOK_of _ rfl, ?_⟩
              rw [statusInvListB_eq, List.all_eq_true] at ht ⊢
              intro x hx
              rcases List.mem_append.mp hx with hx | hx
              · exact ht.2 x hx
              · simp at hx
                subst hx
                rw [statusInvB_setParentLink]
                simpa [injStatusInv] using hinj
      | insert i c =>
          cases t with
          | control d => simp [runAt, applyLocal] at hrun
          | controlGroup d cs opts => simp [runAt, applyLocal] at hrun
          | controlArray d cs =>
              simp [runAt, applyLocal, arrayUpdValue] at hrun
              obtain ⟨h1, -, -⟩ := hrun
              subst h1
              simp [statusInvB, Bool.and_eq_true] at ht ⊢
              refine ⟨nodeStatusOK_of _ rfl, ?_⟩
              rw [statusInvListB_eq, List.all_eq_true] at ht ⊢
              intro x hx
              rcases mem_listInsertAt _ _ _ _ hx with hx | hx
              · subst hx
                rw [statusInvB_setParentLink]
                simpa [injStatusInv] using hinj
              · exact ht.2 x hx
      | removeAt i =>
          cases t with
          | control d => simp [runAt, applyLocal] at hrun
          | controlGroup d cs opts => simp [runAt, applyLocal] at hrun
          | controlArray d cs =>
              simp [runAt, applyLocal, arrayUpdValue] at hrun
              obtain ⟨h1, -, -⟩ := hrun
              subst h1
              simp [statusInvB, Bool.and_eq_true] at ht ⊢
              refine ⟨nodeStatusOK_of _ rfl, ?_⟩
              rw [statusInvListB_eq, List.all_eq_true] at ht ⊢
              exact fun x hx => ht.2 x (mem_listRemoveAt _ _ _ hx)
      | «include» n =>
          cases t with
          | control d => simp [runAt, applyLocal] at hrun
          | controlArray d cs => simp [runAt, applyLocal] at hrun
          | controlGroup d cs opts =>
              simp [runAt, applyLocal, groupUpdValue] at hrun
              obtain ⟨h1, -, -⟩ := hrun
              subst h1
              simp [statusInvB, Bool.and_eq_true] at ht ⊢
              exact ⟨nodeStatusOK_of _ rfl, ht.2⟩
      | exclude n =>
          cases t with
          | control d => simp [runAt, applyLocal] at hrun
          | controlArray d cs => simp [runAt, applyLocal] at hrun
          | controlGroup d cs opts =>
              simp [runAt, applyLocal, groupUpdValue] at hrun
              obtain ⟨h1, -, -⟩ := hrun
              subst h1
              simp [statusInvB, Bool.and_eq_true] at ht ⊢
              exact ⟨nodeStatusOK_of _ rfl, ht.2⟩
      | addControl n c =>
          cases t with
          | control d => simp [runAt, applyLocal] at hrun
          | controlArray d cs => simp [runAt, applyLocal] at hrun
          | controlGroup d cs opts =>
              simp [runAt, applyLocal] at hrun
              obtain ⟨h1, -, -⟩ := hrun
              subst h1
              simp [statusInvB, Bool.and_eq_true] at ht ⊢
              refine ⟨ht.1, ?_⟩
              rw [statusInvPairsB_eq, List.all_eq_true] at ht ⊢
              intro x hx
              rcases mem_setA _ _ _ _ hx with hx | hx
              · rw [hx]
                simpa [injStatusInv] using hinj
              · exact ht.2 x hx
      | removeControl n =>
          cases t with
          | control d => simp [runAt, applyLocal] at hrun
          | controlArray d cs => simp [runAt, applyLocal] at hrun
          | controlGroup d cs opts =>
              simp [runAt, applyLocal] at hrun
              obtain ⟨h1, -, -⟩ := hrun
              subst h1
              simp [statusInvB, Bool.and_eq_true] at ht ⊢
              refine ⟨ht.1, ?_⟩
              rw [statusInvPairsB_eq, List.all_eq_true] at ht ⊢
              exact fun x hx => ht.2 x (mem_removeA _ _ _ hx)
      | updateValidity =>
          cases t with
          | control d =>
              simp [runAt, applyLocal, nodeUpdValidity] at hrun
              obtain ⟨h1, -, -⟩ := hrun
              subst h1
              simp [statusInvB]
              exact nodeStatusOK_of _ rfl
          | controlGroup d cs opts =>
              simp [runAt, applyLocal, nodeUpdValidity] at hrun
              obtain ⟨h1, -, -⟩ := hrun
              subst h1
              simp [statusInvB, Bool.and_eq_true] at ht ⊢
              exact ⟨nodeStatusOK_of _ rfl, ht.2⟩
          | controlArray d cs =>
              simp [runAt, applyLocal, nodeUpdValidity] at hrun
              obtain ⟨h1, -, -⟩ := hrun
              subst h1
              simp [statusInvB, Bool.and_eq_true] at ht ⊢
              exact ⟨nodeStatusOK_of _ rfl, ht.2⟩
  | .key s :: p, op, t, t', ems, u, ht, hinj, hrun => by
      cases t with
      | control d => simp [runAt] at hrun
      | controlArray d cs => simp [runAt] at hrun
      | controlGroup d cs opts =>
          cases hlk : lookupA cs s with
          | none => simp [runAt, hlk] at hrun
          | some child =>
              cases hrec : runAt op p child with
              | none => simp [runAt, hlk, hrec] at hrun
              | some r =>
                  obtain ⟨child', ems', up⟩ := r
                  simp [statusInvB, Bool.and_eq_true] at ht
                  have hch : statusInvB child = true := by
                    obtain ⟨k, hkm⟩ := lookupA_mem hlk
                    have := ht.2
                    rw [statusInvPairsB_eq, List.all_eq_true] at this
                    exact this (k, child) hkm
                  have hch' := statusInv_runAt p op child child' ems' up hch hinj hrec
                  have hpairs : statusInvPairsB (setA cs s child') = true := by
                    rw [statusInvPairsB_eq, List.all_eq_true]
                    intro x hx
                    rcases mem_setA _ _ _ _ hx with hx | hx
                    · rw [hx]; exact hch'
                    · have := ht.2
                      rw [statusInvPairsB_eq, List.all_eq_true] at this
                      exact this x hx
                  cases up with
                  | false =>
                      simp [runAt, hlk, hrec] at hrun
                      obtain ⟨h1, -, -⟩ := hrun
                      subst h1
                      simp [statusInvB, Bool.and_eq_true]
                      exact ⟨ht.1, hpairs⟩
                  | true =>
                      cases hoc : opChain op <;>
                        simp [runAt, hlk, hrec, hoc, groupUpdValue, nodeUpdValidity] at hrun <;>
                        obtain ⟨h1, -, -⟩ := hrun <;>
                        subst h1 <;>
                        simp [statusInvB, Bool.and_eq_true] <;>
                        exact ⟨nodeStatusOK_of _ rfl, hpairs⟩
  | .idx i :: p, op, t, t', ems, u, ht, hinj, hrun => by
      cases t with
      | control d => simp [runAt] at hrun
      | controlGroup d cs opts => simp [runAt] at hrun
      | controlArray d cs =>
          cases hlk : cs[i]? with
          | none => simp [runAt, hlk] at hrun
          | some child =>
              cases hrec : runAt op p child with
              | none => simp [runAt, hlk, hrec] at hrun
              | some r =>
                  obtain ⟨child', ems', up⟩ := r
                  simp [statusInvB, Bool.and_eq_true] at ht
                  have hch : statusInvB child = true := by
                    have := ht.2
                    rw [statusInvListB_eq, List.all_eq_true] at this
                    exact this child (List.getElem?_mem hlk)
                  have hch' := statusInv_runAt p op child child' ems' up hch hinj hrec
                  have hlist : statusInvListB (cs.set i child') = true := by
                    rw [statusInvListB_eq, List.all_eq_true]
                    intro x hx
                    rcases List.mem_or_eq_of_mem_set hx with hx | hx
                    · have := ht.2
                      rw [statusInvListB_eq, List.all_eq_true] at this
                      exact this x hx
                    · rw [hx]; exact hch'
                  cases up with
                  | false =>
                      simp [runAt, hlk, hrec] at hrun
                      obtain ⟨h1, -, -⟩ := hrun
                      subst h1
                      simp [statusInvB, Bool.and_eq_true]
                      exact ⟨ht.1, hlist⟩
                  | true =>
                      cases hoc : opChain op <;>
                        simp [runAt, hlk, hrec, hoc, arrayUpdValue, nodeUpdValidity] at hrun <;>
                        obtain ⟨h1, -, -⟩ := hrun <;>
                        subst h1 <;>
                        simp [statusInvB, Bool.and_eq_true] <;>
                        exact ⟨nodeStatusOK_of _ rfl, hlist⟩

/-- C2: the status invariant — `status == INVALID` iff the errors map is
present, and the status is always one of the two constants `VALID` and
`INVALID` — holds at every node of every tree produced by the constructors
(given children satisfying it) and is preserved by every public operation
(given any injected child satisfies it). -/
theorem claim_C2 :
    (∀ (i : Nat) (v : Value) (va : Validator), statusInvB (mkControl i v va) = true) ∧
    (∀ (i : Nat) (cs : List (String × AbstractControl))
        (opts : Option (List (String × Bool))) (va : Validator),
      statusInvPairsB cs = true → statusInvB (mkControlGroup i cs opts va) = true) ∧
    (∀ (i : Nat) (cs : List AbstractControl) (va : Validator),
      statusInvListB cs = true → statusInvB (mkControlArray i cs va) = true) ∧
    (∀ (op : LocalOp) (p : List PathStep) (t t' : AbstractControl)
        (ems : List Emission) (u : Bool),
      statusInvB t = true → injStatusInv op = true →
      runAt op p t = some (t', ems, u) → statusInvB t' = true) := by
  refine ⟨?_, ?_, ?_, fun op p t t' ems u ht hi hr => statusInv_runAt p op t t' ems u ht hi hr⟩
  · intro i v va
    simp [mkControl, statusInvB]
    exact nodeStatusOK_of _ rfl
  · intro i cs opts va h
    simp [mkControlGroup, statusInvB, Bool.and_eq_true]
    refine ⟨nodeStatusOK_of _ rfl, ?_⟩
    rw [statusInvPairsB_eq, List.all_eq_true] at h ⊢
    intro x hx
    obtain ⟨q, hq, rfl⟩ := List.mem_map.mp hx
    rw [statusInvB_setParentLink]
    exact h q hq
  · intro i cs va h
    simp [mkControlArray, statusInvB, Bool.and_eq_true]
    refine ⟨nodeStatusOK_of _ rfl, ?_⟩
    rw [statusInvListB_eq, List.all_eq_true] at h ⊢
    intro x hx
    obtain ⟨q, hq, rfl⟩ := List.mem_map.mp hx
    rw [statusInvB_setParentLink]
    exact h q hq

theorem claim_C2_witness :
    statusInvB scGroupB = true ∧
      (runAt (.updateValue (.int 3)) [.key "b"] scGroupB).map
          (fun r => statusInvB r.1) = some true := by
  refine ⟨by decide, ?_⟩
  cases hrun : runAt (.updateValue (.int 3)) [.key "b"] scGroupB with
  | none =>
      have hs : (runAt (.updateValue (.int 3)) [.key "b"] scGroupB).isSome = true := by decide
      rw [hrun] at hs
      simp at hs
  | some r =>
      simp only [Option.map_some', Option.some.injEq]
      exact claim_C2.2.2.2 (.updateValue (.int 3)) [.key "b"] scGroupB r.1 r.2.1
        r.2.2 (by decide) (by decide) (by rw [← hrun])

theorem eval_errStatus_control (va : Validator) (d : NodeData) (e : Option Errors)
    (s : String) :
    Validator.eval va (.control { d with errors := e, status := s }) =
      Validator.eval va (.control d) :=
  eval_congr_control va _ d rfl

theorem eval_errStatus_group (va : Validator) (d : NodeData) (e : Option Errors)
    (s : String) (cs : List (String × AbstractControl)) (opts : List (String × Bool)) :
    Validator.eval va (.controlGroup { d with errors := e, status := s } cs opts) =
      Validator.eval va (.controlGroup d cs opts) :=
  eval_congr_group va _ d cs opts rfl

theorem eval_errStatus_array (va : Validator) (d : NodeData) (e : Option Errors)
    (s : String) (cs : List AbstractControl) :
    Validator.eval va (.controlArray { d with errors := e, status := s } cs) =
      Validator.eval va (.controlArray d cs) :=
  eval_congr_array va _ d cs rfl

theorem data_nodeUpdValidity (c : AbstractControl) :
    (nodeUpdValidity c).data =
      { c.data with
        errors := Validator.eval c.data.validator c
        status := statusOf (Validator.eval c.data.validator c) } := by
  cases c <;> simp [nodeUpdValidity, AbstractControl.data]

theorem nodeFresh_nodeUpdValidity (c : AbstractControl) :
    nodeFresh (nodeUpdValidity c) = true := by
  cases c with
  | control d =>
      simp [nodeUpdValidity, nodeFresh, AbstractControl.data, eval_errStatus_control]
  | controlGroup d cs opts =>
      simp [nodeUpdValidity, nodeFresh, AbstractControl.data, eval_errStatus_group]
  | controlArray d cs =>
      simp [nodeUpdValidity, nodeFresh, AbstractControl.data, eval_errStatus_array]

theorem updValidity_runAt :
    ∀ (p : List PathStep) (t : AbstractControl), linkedAlong p t = true →
      ∃ t', runAt .updateValidity p t = some (t', [], t.data.parentLinked) ∧
        chainFresh p t' = true ∧ t'.data.parentLinked = t.data.parentLinked
  | [], t, _ => by
      refine ⟨nodeUpdValidity t, by simp [runAt, applyLocal], ?_, ?_⟩
      · simp [chainFresh]
        exact nodeFresh_nodeUpdValidity t
      · simp [data_nodeUpdValidity]
  | .key s :: p, t, h => by
      cases t with
      | control d => simp [linkedAlong] at h
      | controlArray d cs => simp [linkedAlong] at h
      | controlGroup d cs opts =>
          cases hlk : lookupA cs s with
          | none => simp [linkedAlong, hlk] at h
          | some child =>
              simp [linkedAlong, hlk, Bool.and_eq_true] at h
              obtain ⟨t', hrun, hch, hpl⟩ := updValidity_runAt p child h.2
              rw [h.1] at hrun
              refine ⟨nodeUpdValidity (.controlGroup d (setA cs s t') opts), ?_, ?_, ?_⟩
              · simp [runAt, hlk, hrun, opChain, consPath, AbstractControl.data]
              · simp only [nodeUpdValidity, AbstractControl.data]
                simp [chainFresh, lookupA_setA_self, hch, Bool.and_eq_true]
                have := nodeFresh_nodeUpdValidity (.controlGroup d (setA cs s t') opts)
                simpa [nodeUpdValidity, nodeFresh, AbstractControl.data] using this
              · simp [nodeUpdValidity, AbstractControl.data]
  | .idx i :: p, t, h => by
      cases t with
      | control d => simp [linkedAlong] at h
      | controlGroup d cs opts => simp [linkedAlong] at h
      | controlArray d cs =>
          cases hlk : cs[i]? with
          | none => simp [linkedAlong, hlk] at h
          | some child =>
              simp [linkedAlong, hlk, Bool.and_eq_true] at h
              obtain ⟨t', hrun, hch, hpl⟩ := updValidity_runAt p child h.2
              rw [h.1] at hrun
              refine ⟨nodeUpdValidity (.controlArray d (cs.set i t')), ?_, ?_, ?_⟩
              · simp [runAt, hlk, hrun, opChain, consPath, AbstractControl.data]
              · simp only [nodeUpdValidity, AbstractControl.data]
                simp [chainFresh, Bool.and_eq_true]
                constructor
                · have := nodeFresh_nodeUpdValidity (.controlArray d (cs.set i t'))
                  simpa [nodeUpdValidity, nodeFresh, AbstractControl.data] using this
                · have hi : i < cs.length := by
                    by_contra hge
                    simp [List.getElem?_eq_none (Nat.le_of_not_lt hge)] at hlk
                  simp [List.getElem?_set_self hi, hch]
              · simp [nodeUpdValidity, AbstractControl.data]

/-- C3: `updateValidity` is total and walks unconditionally to the root:
for every node of every tree whose chain to the target has its `_parent`
pointers set, the call succeeds with no emission, and afterwards the target
and every one of its ancestors up to the root has `errors` equal to
re-invoking its own validator on its current state and `status` set by the
errors-present rule — independently of whether any status changed; the
walk continues above the tree exactly when the root's own `_parent` is
present. -/
theorem claim_C3 :
    ∀ (p : List PathStep) (t : AbstractControl), linkedAlong p t = true →
      ∃ t', runAt .updateValidity p t = some (t', [], t.data.parentLinked) ∧
        chainFresh p t' = true := by
  intro p t h
  obtain ⟨t', h1, h2, -⟩ := updValidity_runAt p t h
  exact ⟨t', h1, h2⟩

theorem claim_C3_witness :
    linkedAlong [.key "m", .key "l"] c4Root = true ∧
      (runAt .updateValidity [.key "m", .key "l"] c4Root).map
          (fun r => (chainFresh [.key "m", .key "l"] r.1, r.2.1)) = some (true, []) := by
  refine ⟨by decide, ?_⟩
  obtain ⟨t', hrun, hch⟩ := claim_C3 [.key "m", .key "l"] c4Root (by decide)
  rw [hrun]
  simp [hch]

theorem skeleton_nodeUpdValidity (c : AbstractControl) :
    skeleton (nodeUpdValidity c) = skeleton c := by
  cases c <;> simp [nodeUpdValidity, skeleton]

theorem skeletonPairs_setA {s : String} {child child' : AbstractControl}
    (hsk : skeleton child' = skeleton child) :
    ∀ cs : List (String × AbstractControl), lookupA cs s = some child →
      skeletonPairs (setA cs s child') = skeletonPairs cs
  | [], h => by simp [lookupA] at h
  | (k, v) :: r, h => by
      by_cases hk : (k == s) = true
      · simp [lookupA, hk] at h
        simp [setA, hk, skeletonPairs, h, hsk]
      · simp [lookupA, hk] at h
        simp [setA, hk, skeletonPairs, skeletonPairs_setA hsk r h]

theorem skeletonL_set {child child' : AbstractControl}
    (hsk : skeleton child' = skeleton child) :
    ∀ (cs : List AbstractControl) (i : Nat), cs[i]? = some child →
      skeletonL (cs.set i child') = skeletonL cs
  | [], i, h => by simp at h
  | c :: r, 0, h => by
      simp at h
      simp [List.set, skeletonL, h, hsk]
  | c :: r, i + 1, h => by
      simp at h
      simp [List.set, skeletonL, skeletonL_set hsk r i h]

theorem updValidity_frame :
    ∀ (p : List PathStep) (t t' : AbstractControl) (ems : List Emission) (u : Bool),
      runAt .updateValidity p t = some (t', ems, u) →
      ems = [] ∧ skeleton t' = skeleton t
  | [], t, t', ems, u, h => by
      simp [runAt, applyLocal] at h
      obtain ⟨h1, h2, -⟩ := h
      subst h1 h2
      exact ⟨rfl, skeleton_nodeUpdValidity t⟩
  | .key s :: p, t, t', ems, u, h => by
      cases t with
      | control d => simp [runAt] at h
      | controlArray d cs => simp [runAt] at h
      | controlGroup d cs opts =>
          cases hlk : lookupA cs s with
          | none => simp [runAt, hlk] at h
          | some child =>
              cases hrec : runAt .updateValidity p child with
              | none => simp [runAt, hlk, hrec] at h
              | some r =>
                  obtain ⟨child', ems', up⟩ := r
                  obtain ⟨he, hsk⟩ := updValidity_frame p child child' ems' up hrec
                  subst he
                  have hpairs := skeletonPairs_setA hsk cs hlk
                  cases up with
                  | false =>
                      simp [runAt, hlk, hrec, consPath] at h
                      obtain ⟨h1, h2, -⟩ := h
                      subst h1 h2
                      exact ⟨rfl, by simp [skeleton, hpairs]⟩
                  | true =>
                      simp [runAt, hlk, hrec, opChain, consPath] at h
                      obtain ⟨h1, h2, -⟩ := h
                      subst h1 h2
                      refine ⟨rfl, ?_⟩
                      rw [skeleton_nodeUpdValidity]
                      simp [skeleton, hpairs]
  | .idx i :: p, t, t', ems, u, h => by
      cases t with
      | control d => simp [runAt] at h
      | controlGroup d cs opts => simp [runAt] at h
      | controlArray d cs =>
          cases hlk : cs[i]? with
          | none => simp [runAt, hlk] at h
          | some child =>
              cases hrec : runAt .updateValidity p child with
              | none => simp [runAt, hlk, hrec] at h
              | some r =>
                  obtain ⟨child', ems', up⟩ := r
                  obtain ⟨he, hsk⟩ := updValidity_frame p child child' ems' up hrec
                  subst he
                  have hlist := skeletonL_set hsk cs i hlk
                  cases up with
                  | false =>
                      simp [runAt, hlk, hrec, consPath] at h
                      obtain ⟨h1, h2, -⟩ := h
                      subst h1 h2
                      exact ⟨rfl, by simp [skeleton, hlist]⟩
                  | true =>
                      simp [runAt, hlk, hrec, opChain, consPath] at h
                      obtain ⟨h1, h2, -⟩ := h
                      subst h1 h2
                      refine ⟨rfl, ?_⟩
                      rw [skeleton_nodeUpdValidity]
                      simp [skeleton, hlist]

theorem nodeAt_nodeUpdValidity_cons (b : PathStep) (q : List PathStep)
    (c : AbstractControl) :
    nodeAt (b :: q) (nodeUpdValidity c) = nodeAt (b :: q) c := by
  cases c <;> cases b <;> simp [nodeUpdValidity, nodeAt]

theorem updValidity_offchain :
    ∀ (p : List PathStep) (t t' : AbstractControl) (ems : List Emission) (u : Bool)
      (q : List PathStep),
      runAt .updateValidity p t = some (t', ems, u) → visitsB p q = false →
      nodeAt q t' = nodeAt q t
  | [], t, t', ems, u, q, h, hv => by
      simp [runAt, applyLocal] at h
      obtain ⟨h1, -, -⟩ := h
      subst h1
      cases q with
      | nil => simp [visitsB] at hv
      | cons b q' => exact nodeAt_nodeUpdValidity_cons b q' t
  | .key s :: p, t, t', ems, u, q, h, hv => by
      cases t with
      | control d => simp [runAt] at h
      | controlArray d cs => simp [runAt] at h
      | controlGroup d cs opts =>
          cases hlk : lookupA cs s with
          | none => simp [runAt, hlk] at h
          | some child =>
              cases hrec : runAt .updateValidity p child with
              | none => simp [runAt, hlk, hrec] at h
              | some r =>
                  obtain ⟨child', ems', up⟩ := r
                  have hT : ∃ D, t' = .controlGroup D (setA cs s child') opts := by
                    cases up with
                    | false =>
                        simp [runAt, hlk, hrec] at h
                        exact ⟨d, h.1.symm⟩
                    | true =>
                        simp [runAt, hlk, hrec, opChain, nodeUpdValidity] at h
                        exact ⟨_, h.1.symm⟩
                  obtain ⟨D, hT⟩ := hT
                  subst hT
                  cases q with
                  | nil => simp [visitsB] at hv
                  | cons b q' =>
                      cases b with
                      | idx j => simp [nodeAt]
                      | key s' =>
                          by_cases hss : s' = s
                          · subst hss
                            simp [visitsB] at hv
                            simp [nodeAt, lookupA_setA_self, hlk]
                            exact updValidity_offchain p child child' ems' up q' hrec hv
                          · rw [show nodeAt (PathStep.key s' :: q')
                                (AbstractControl.controlGroup D (setA cs s child') opts) =
                                  (match lookupA (setA cs s child') s' with
                                   | some ch => nodeAt q' ch
                                   | none => none) from rfl]
                            rw [lookupA_setA_ne s s' child' hss cs]
                            rfl
  | .idx i :: p, t, t', ems, u, q, h, hv => by
      cases t with
      | control d => simp [runAt] at h
      | controlGroup d cs opts => simp [runAt] at h
      | controlArray d cs =>
          cases hlk : cs[i]? with
          | none => simp [runAt, hlk] at h
          | some child =>
              cases hrec : runAt .updateValidity p child with
              | none => simp [runAt, hlk, hrec] at h
              | some r =>
                  obtain ⟨child', ems', up⟩ := r
                  have hT : ∃ D, t' = .controlArray D (cs.set i child') := by
                    cases up with
                    | false =>
                        simp [runAt, hlk, hrec] at h
                        exact ⟨d, h.1.symm⟩
                    | true =>
                        simp [runAt, hlk, hrec, opChain, nodeUpdValidity] at h
                        exact ⟨_, h.1.symm⟩
                  obtain ⟨D, hT⟩ := hT
                  subst hT
                  cases q with
                  | nil => simp [visitsB] at hv
                  | cons b q' =>
                      cases b with
                      | key s' => simp [nodeAt]
                      | idx j =>
                          by_cases hij : j = i
                          · subst hij
                            simp [visitsB] at hv
                            have hlen : j < cs.length := by
                              by_contra hge
                              simp [List.getElem?_eq_none (Nat.le_of_not_lt hge)] at hlk
                            simp [nodeAt, List.getElem?_set_self hlen, hlk]
                            exact updValidity_offchain p child child' ems' up q' hrec hv
                          · rw [show nodeAt (PathStep.idx j :: q')
                                (AbstractControl.controlArray D (cs.set i child')) =
                                  (match (cs.set i child')[j]? with
                                   | some ch => nodeAt q' ch
                                   | none => none) from rfl]
                            rw [List.getElem?_set_ne (fun h => hij h.symm)]
                            rfl

/-- C10: a call to `updateValidity`, wherever it is issued in the tree and
however far its upward walk proceeds, emits nothing on any change channel
and modifies only `errors` and `status` fields of the visited chain: the
skeletons (everything but errors/status) of the trees before and after
agree, and every node not on the visited chain is entirely unchanged. -/
theorem claim_C10 :
    ∀ (p : List PathStep) (t t' : AbstractControl) (ems : List Emission) (u : Bool),
      runAt .updateValidity p t = some (t', ems, u) →
      ems = [] ∧ skeleton t' = skeleton t ∧
        ∀ q, visitsB p q = false → nodeAt q t' = nodeAt q t := by
  intro p t t' ems u h
  obtain ⟨he, hsk⟩ := updValidity_frame p t t' ems u h
  exact ⟨he, hsk, fun q hq => updValidity_offchain p t t' ems u q h hq⟩

theorem claim_C10_witness :
    (runAt .updateValidity [.key "m"] c4Root).map
        (fun r => (r.2.1, skeleton r.1, nodeAt [.key "m", .key "l"] r.1)) =
      some ([], skeleton c4Root, nodeAt [.key "m", .key "l"] c4Root) := by
  cases hrun : runAt .updateValidity [.key "m"] c4Root with
  | none =>
      have hs : (runAt .updateValidity [.key "m"] c4Root).isSome = true := by decide
      rw [hrun] at hs
      simp at hs
  | some r =>
      obtain ⟨he, hsk, hoff⟩ := claim_C10 [.key "m"] c4Root r.1 r.2.1 r.2.2
        (by rw [← hrun])
      simp [he, hsk, hoff [.key "m", .key "l"] (by decide)]

theorem eval_pl_control (va : Validator) (d : NodeData) :
    Validator.eval va (.control { d with parentLinked := true }) =
      Validator.eval va (.control d) :=
  eval_congr_control va _ d rfl

theorem eval_pl_group (va : Validator) (d : NodeData)
    (cs : List (String × AbstractControl)) (opts : List (String × Bool)) :
    Validator.eval va (.controlGroup { d with parentLinked := true } cs opts) =
      Validator.eval va (.controlGroup d cs opts) :=
  eval_congr_group va _ d cs opts rfl

theorem eval_pl_array (va : Validator) (d : NodeData) (cs : List AbstractControl) :
    Validator.eval va (.controlArray { d with parentLinked := true } cs) =
      Validator.eval va (.controlArray d cs) :=
  eval_congr_array va _ d cs rfl

theorem consistentB_setParentLink (c : AbstractControl) :
    consistentB (setParentLink c) = consistentB c := by
  cases c with
  | control d =>
      simp [setParentLink, consistentB, localConsistentB, aggValue, nodeFresh,
        AbstractControl.data, eval_pl_control]
  | controlGroup d cs opts =>
      simp [setParentLink, consistentB, localConsistentB, aggValue, nodeFresh,
        AbstractControl.data, eval_pl_group]
  | controlArray d cs =>
      simp [setParentLink, consistentB, localConsistentB, aggValue, nodeFresh,
        AbstractControl.data, eval_pl_array]

theorem wellLinkedB_setParentLink (c : AbstractControl) :
    wellLinkedB (setParentLink c) = wellLinkedB c := by
  cases c <;> simp [setParentLink, wellLinkedB]

theorem consistentB_groupUpd (d : NodeData) (cs : List (String × AbstractControl))
    (opts : List (String × Bool)) (hc : consistentPairsB cs = true) :
    consistentB (groupUpdValue d cs opts).1 = true := by
  simp only [groupUpdValue, groupSetVES]
  simp [consistentB, hc, localConsistentB, aggValue, nodeFresh, AbstractControl.data]
  exact (eval_congr_group _ _ _ _ _ rfl)

theorem consistentB_arrayUpd (d : NodeData) (cs : List AbstractControl)
    (hc : consistentListB cs = true) :
    consistentB (arrayUpdValue d cs).1 = true := by
  simp only [arrayUpdValue, arraySetVES]
  simp [consistentB, hc, localConsistentB, aggValue, nodeFresh, AbstractControl.data]
  exact (eval_congr_array _ _ _ _ rfl)

theorem consistentPairs_lookup {cs : List (String × AbstractControl)} {s : String}
    {child : AbstractControl} (h : consistentPairsB cs = true)
    (hlk : lookupA cs s = some child) : consistentB child = true := by
  rw [consistentPairsB_eq, List.all_eq_true] at h
  obtain ⟨k, hm⟩ := lookupA_mem hlk
  exact h (k, child) hm

theorem consistentList_get {cs : List AbstractControl} {i : Nat}
    {child : AbstractControl} (h : consistentListB cs = true)
    (hlk : cs[i]? = some child) : consistentB child = true := by
  rw [consistentListB_eq, List.all_eq_true] at h
  exact h child (List.getElem?_mem hlk)

theorem wellLinkedPairs_lookup {cs : List (String × AbstractControl)} {s : String}
    {child : AbstractControl} (h : wellLinkedPairsB cs = true)
    (hlk : lookupA cs s = some child) :
    child.data.parentLinked = true ∧ wellLinkedB child = true := by
  rw [wellLinkedPairsB_eq, List.all_eq_true] at h
  obtain ⟨k, hm⟩ := lookupA_mem hlk
  have := h (k, child) hm
  simpa [Bool.and_eq_true] using this

theorem wellLinkedList_get {cs : List AbstractControl} {i : Nat}
    {child : AbstractControl} (h : wellLinkedListB cs = true)
    (hlk : cs[i]? = some child) :
    child.data.parentLinked = true ∧ wellLinkedB child = true := by
  rw [wellLinkedListB_eq, List.all_eq_true] at h
  have := h child (List.getElem?_mem hlk)
  simpa [Bool.and_eq_true] using this

theorem opAllowed_opChain {op : LocalOp} (h : opAllowed op = true) :
    opChain op = true := by
  cases op <;> simp_all [opAllowed, opChain]

theorem consist_runAt :
    ∀ (p : List PathStep) (op : LocalOp) (t t' : AbstractControl)
      (ems : List Emission) (u : Bool),
      opAllowed op = true → injConsistent op = true →
      wellLinkedB t = true → consistentB t = true →
      runAt op p t = some (t', ems, u) →
      consistentB t' = true ∧ wellLinkedB t' = true ∧
        u = t.data.parentLinked ∧ t'.data.parentLinked = t.data.parentLinked
  | [], op, t, t', ems, u, hop, hinj, hwl, hc, hrun => by
      cases op with
      | updateValue v =>
          cases t <;> simp [runAt, applyLocal] at hrun
          obtain ⟨h1, -, h3⟩ := hrun
          subst h1
          refine ⟨?_, by simp [wellLinkedB], by simp [← h3, AbstractControl.data],
            by simp [AbstractControl.data]⟩
          simp [consistentB, localConsistentB, aggValue, nodeFresh, AbstractControl.data]
          exact (eval_congr_control _ _ _ rfl)
      | push c =>
          cases t with
          | control d => simp [runAt, applyLocal] at hrun
          | controlGroup d cs opts => simp [runAt, applyLocal] at hrun
          | controlArray d cs =>
              simp [runAt, applyLocal] at hrun
              obtain ⟨h1, -, h3⟩ := hrun
              subst h1
              simp [injConsistent, Bool.and_eq_true] at hinj
              simp [consistentB, wellLinkedB, Bool.and_eq_true] at hc hwl
              refine ⟨?_, ?_, by simp [← h3, arrayUpdValue, arraySetVES, AbstractControl.data],
                by simp [arrayUpdValue, arraySetVES, AbstractControl.data]⟩
              · refine consistentB_arrayUpd d _ ?_
                rw [consistentListB_eq, List.all_eq_true]
                intro x hx
                rcases List.mem_append.mp hx with hx | hx
                · have := hc.2
                  rw [consistentListB_eq, List.all_eq_true] at this
                  exact this x hx
                · simp at hx
                  subst hx
                  rw [consistentB_setParentLink]
                  exact hinj.1
              · show wellLinkedListB _ = true
                rw [wellLinkedListB_eq, List.all_eq_true]
                intro x hx
                rcases List.mem_append.mp hx with hx | hx
                · rw [wellLinkedListB_eq, List.all_eq_true] at hwl
                  exact hwl x hx
                · simp at hx
                  subst hx
                  simp [data_setParentLink, wellLinkedB_setParentLink, hinj.2]
      | insert i c =>
          cases t with
          | control d => simp [runAt, applyLocal] at hrun
          | controlGroup d cs opts => simp [runAt, applyLocal] at hrun
          | controlArray d cs =>
              simp [runAt, applyLocal] at hrun
              obtain ⟨h1, -, h3⟩ := hrun
              subst h1
              simp [injConsistent, Bool.and_eq_true] at hinj
              simp [consistentB, wellLinkedB, Bool.and_eq_true] at hc hwl
              refine ⟨?_, ?_, by simp [← h3, arrayUpdValue, arraySetVES, AbstractControl.data],
                by simp [arrayUpdValue, arraySetVES, AbstractControl.data]⟩
              · refine consistentB_arrayUpd d _ ?_
                rw [consistentListB_eq, List.all_eq_true]
                intro x hx
                rcases mem_listInsertAt _ _ _ _ hx with hx | hx
                · subst hx
                  rw [consistentB_setParentLink]
                  exact hinj.1
                · have := hc.2
                  rw [consistentListB_eq, List.all_eq_true] at this
                  exact this x hx
              · show wellLinkedListB _ = true
                rw [wellLinkedListB_eq, List.all_eq_true]
                intro x hx
                rcases mem_listInsertAt _ _ _ _ hx with hx | hx
                · subst hx
                  simp [data_setParentLink, wellLinkedB_setParentLink, hinj.2]
                · rw [wellLinkedListB_eq, List.all_eq_true] at hwl
                  exact hwl x hx
      | removeAt i =>
          cases t with
          | control d => simp [runAt, applyLocal] at hrun
          | controlGroup d cs opts => simp [runAt, applyLocal] at hrun
          | controlArray d cs =>
              simp [runAt, applyLocal] at hrun
              obtain ⟨h1, -, h3⟩ := hrun
              subst h1
              simp [consistentB, wellLinkedB, Bool.and_eq_true] at hc hwl
              refine ⟨?_, ?_, by simp [← h3, arrayUpdValue, arraySetVES, AbstractControl.data],
                by simp [arrayUpdValue, arraySetVES, AbstractControl.data]⟩
              · refine consistentB_arrayUpd d _ ?_
                rw [consistentListB_eq, List.all_eq_true]
                intro x hx
                have := hc.2
                rw [consistentListB_eq, List.all_eq_true] at this
                exact this x (mem_listRemoveAt _ _ _ hx)
              · show wellLinkedListB _ = true
                rw [wellLinkedListB_eq, List.all_eq_true]
                intro x hx
                rw [wellLinkedListB_eq, List.all_eq_true] at hwl
                exact hwl x (mem_listRemoveAt _ _ _ hx)
      | «include» n =>
          cases t with
          | control d => simp [runAt, applyLocal] at hrun
          | controlArray d cs => simp [runAt, applyLocal] at hrun
          | controlGroup d cs opts =>
              simp [runAt, applyLocal] at hrun
              obtain ⟨h1, -, h3⟩ := hrun
              subst h1
              simp [consistentB, wellLinkedB, Bool.and_eq_true] at hc hwl
              exact ⟨consistentB_groupUpd d cs _ hc.2, hwl,
                by simp [← h3, groupUpdValue, groupSetVES, AbstractControl.data],
                by simp [groupUpdValue, groupSetVES, AbstractControl.data]⟩
      | exclude n =>
          cases t with
          | control d => simp [runAt, applyLocal] at hrun
          | controlArray d cs => simp [runAt, applyLocal] at hrun
          | controlGroup d cs opts =>
              simp [runAt, applyLocal] at hrun
              obtain ⟨h1, -, h3⟩ := hrun
              subst h1
              simp [consistentB, wellLinkedB, Bool.and_eq_true] at hc hwl
              exact ⟨consistentB_groupUpd d cs _ hc.2, hwl,
                by simp [← h3, groupUpdValue, groupSetVES, AbstractControl.data],
                by simp [groupUpdValue, groupSetVES, AbstractControl.data]⟩
      | addControl n c => simp [opAllowed] at hop
      | removeControl n => simp [opAllowed] at hop
      | updateValidity => simp [opAllowed] at hop
  | .key s :: p, op, t, t', ems, u, hop, hinj, hwl, hc, hrun => by
      cases t with
      | control d => simp [runAt] at hrun
      | controlArray d cs => simp [runAt] at hrun
      | controlGroup d cs opts =>
          cases hlk : lookupA cs s with
          | none => simp [runAt, hlk] at hrun
          | some child =>
              cases hrec : runAt op p child with
              | none => simp [runAt, hlk, hrec] at hrun
              | some r =>
                  obtain ⟨child', ems', up⟩ := r
                  simp [consistentB, Bool.and_eq_true] at hc
                  simp [wellLinkedB] at hwl
                  obtain ⟨hfl, hwlc⟩ := wellLinkedPairs_lookup hwl hlk
                  have hcc := consistentPairs_lookup hc.2 hlk
                  obtain ⟨ih1, ih2, ih3, ih4⟩ :=
                    consist_runAt p op child child' ems' up hop hinj hwlc hcc hrec
                  have hup : up = true := by rw [ih3, hfl]
                  subst hup
                  have hoc := opAllowed_opChain hop
                  simp [runAt, hlk, hrec, hoc] at hrun
                  obtain ⟨h1, -, h3⟩ := hrun
                  subst h1
                  have hpairs : consistentPairsB (setA cs s child') = true := by
                    rw [consistentPairsB_eq, List.all_eq_true]
                    intro x hx
                    rcases mem_setA _ _ _ _ hx with hx | hx
                    · rw [hx]; exact ih1
                    · have hcp := hc.2
                      rw [consistentPairsB_eq, List.all_eq_true] at hcp
                      exact hcp x hx
                  have hwp : wellLinkedPairsB (setA cs s child') = true := by
                    rw [wellLinkedPairsB_eq, List.all_eq_true]
                    intro x hx
                    rcases mem_setA _ _ _ _ hx with hx | hx
                    · rw [hx]
                      simp [ih4, hfl, ih2]
                    · rw [wellLinkedPairsB_eq, List.all_eq_true] at hwl
                      exact hwl x hx
                  refine ⟨consistentB_groupUpd d _ opts hpairs, ?_,
                    by simp [← h3, AbstractControl.data],
                    by simp [groupUpdValue, groupSetVES, AbstractControl.data]⟩
                  show wellLinkedB (groupUpdValue d (setA cs s child') opts).1 = true
                  simp [groupUpdValue, wellLinkedB, hwp]
  | .idx i :: p, op, t, t', ems, u, hop, hinj, hwl, hc, hrun => by
      cases t with
      | control d => simp [runAt] at hrun
      | controlGroup d cs opts => simp [runAt] at hrun
      | controlArray d cs =>
          cases hlk : cs[i]? with
          | none => simp [runAt, hlk] at hrun
          | some child =>
              cases hrec : runAt op p child with
              | none => simp [runAt, hlk, hrec] at hrun
              | some r =>
                  obtain ⟨child', ems', up⟩ := r
                  simp [consistentB, Bool.and_eq_true] at hc
                  simp [wellLinkedB] at hwl
                  obtain ⟨hfl, hwlc⟩ := wellLinkedList_get hwl hlk
                  have hcc := consistentList_get hc.2 hlk
                  obtain ⟨ih1, ih2, ih3, ih4⟩ :=
                    consist_runAt p op child child' ems' up hop hinj hwlc hcc hrec
                  have hup : up = true := by rw [ih3, hfl]
                  subst hup
                  have hoc := opAllowed_opChain hop
                  simp [runAt, hlk, hrec, hoc] at hrun
                  obtain ⟨h1, -, h3⟩ := hrun
                  subst h1
                  have hlist : consistentListB (cs.set i child') = true := by
                    rw [consistentListB_eq, List.all_eq_true]
                    intro x hx
                    rcases List.mem_or_eq_of_mem_set hx with hx | hx
                    · have hcp := hc.2
                      rw [consistentListB_eq, List.all_eq_true] at hcp
                      exact hcp x hx
                    · rw [hx]; exact ih1
                  have hwp : wellLinkedListB (cs.set i child') = true := by
                    rw [wellLinkedListB_eq, List.all_eq_true]
                    intro x hx
                    rcases List.mem_or_eq_of_mem_set hx with hx | hx
                    · rw [wellLinkedListB_eq, List.all_eq_true] at hwl
                      exact hwl x hx
                    · rw [hx]
                      simp [ih4, hfl, ih2]
                  refine ⟨consistentB_arrayUpd d _ hlist, ?_,
                    by simp [← h3, AbstractControl.data],
                    by simp [arrayUpdValue, arraySetVES, AbstractControl.data]⟩
                  show wellLinkedB (arrayUpdValue d (cs.set i child')).1 = true
                  simp [arrayUpdValue, wellLinkedB, hwp]

/-- C1 as frozen is refuted by `addControl`: on a consistent, fully
parent-linked group, immediately after `addControl("b", Control(2))`
returns, the group's `value` is stale — it is no longer the aggregation of
its current children's values (the claim's mutation list includes
`addControl`/`removeControl`, but those trigger no recomputation). -/
theorem claim_C1_counterexample :
    consistentB cexTreeC1 = true ∧ wellLinkedB cexTreeC1 = true ∧
      cexAfterC1.map (fun r => consistentB r.1) = some false :=
  ⟨by decide, by decide, by decide⟩

/-- C1 (amended): for every fully parent-linked tree in which every node's
value/errors/status are consistent, after any of the mutations
`updateValue`, `push`, `insert`, `removeAt`, `include`, `exclude` returns
(with any injected child itself consistent and linked), every node's value
again equals the kind-specific aggregation of its current children's values
and every node's errors/status equal re-invoking that node's own validator
at that instant — `addControl`/`removeControl` are excluded, as they
recompute nothing. -/
theorem claim_C1 :
    ∀ (op : LocalOp) (p : List PathStep) (t t' : AbstractControl)
      (ems : List Emission) (u : Bool),
      opAllowed op = true → injConsistent op = true →
      wellLinkedB t = true → consistentB t = true →
      runAt op p t = some (t', ems, u) →
      consistentB t' = true ∧ wellLinkedB t' = true := by
  intro op p t t' ems u h1 h2 h3 h4 h5
  obtain ⟨a, b, -, -⟩ := consist_runAt p op t t' ems u h1 h2 h3 h4 h5
  exact ⟨a, b⟩

theorem claim_C1_witness :
    (opAllowed (.updateValue Value.null) = true ∧
      injConsistent (.updateValue Value.null) = true ∧
      wellLinkedB c4Root = true ∧ consistentB c4Root = true) ∧
      (runAt (.updateValue Value.null) [.key "m", .key "l"] c4Root).map
          (fun r => consistentB r.1 && wellLinkedB r.1) = some true := by
  refine ⟨⟨by decide, by decide, by decide, by decide⟩, ?_⟩
  cases hrun : runAt (.updateValue Value.null) [.key "m", .key "l"] c4Root with
  | none =>
      have hs : (runAt (.updateValue Value.null) [.key "m", .key "l"] c4Root).isSome
          = true := by decide
      rw [hrun] at hs
      simp at hs
  | some r =>
      obtain ⟨a, b⟩ := claim_C1 (.updateValue Value.null) [.key "m", .key "l"]
        c4Root r.1 r.2.1 r.2.2 (by decide) (by decide) (by decide) (by decide)
        (by rw [← hrun])
      simp [a, b]

theorem _included_setA_self (opts : List (String × Bool)) (n : String) (b : Bool) :
    _included (setA opts n b) n = b := by
  simp [_included, lookupA_setA_self]

theorem _included_setA_ne (opts : List (String × Bool)) (n : String) (b : Bool)
    {m : String} (h : m ≠ n) : _included (setA opts n b) m = _included opts m := by
  simp [_included, lookupA_setA_ne n m b h opts]

theorem _included_exclude_pointwise (opts : List (String × Bool)) (n m : String) :
    _included (setA opts n false) m = (!(m == n) && _included opts m) := by
  by_cases hm : m = n
  · subst hm
    simp [_included_setA_self]
  · simp [_included_setA_ne opts n false hm, hm]

theorem includedPairs_exclude (opts : List (String × Bool)) (n : String)
    (cs : List (String × AbstractControl)) :
    includedPairs cs (setA opts n false) =
      (includedPairs cs opts).filter (fun p => !(p.1 == n)) := by
  simp only [includedPairs, List.filter_filter]
  exact List.filter_congr (fun x _ => _included_exclude_pointwise opts n x.1)

theorem _included_restore (opts : List (String × Bool)) (n : String)
    (hn : _included opts n = true) (m : String) :
    _included (setA (setA opts n false) n true) m = _included opts m := by
  by_cases hm : m = n
  · subst hm
    rw [_included_setA_self, hn]
  · rw [_included_setA_ne _ _ _ hm, _included_setA_ne _ _ _ hm]

theorem includedPairs_congr {opts1 opts2 : List (String × Bool)}
    (h : ∀ m, _included opts1 m = _included opts2 m)
    (cs : List (String × AbstractControl)) :
    includedPairs cs opts1 = includedPairs cs opts2 :=
  List.filter_congr (fun x _ => h x.1)

theorem includedPairs_setA_excluded {opts : List (String × Bool)} {n : String}
    (hn : _included opts n = false) (c' : AbstractControl) :
    ∀ cs : List (String × AbstractControl),
      includedPairs (setA cs n c') opts = includedPairs cs opts
  | [] => by simp [includedPairs, setA, List.filter, hn]
  | (k, v) :: r => by
      by_cases hk : (k == n) = true
      · have hkn : k = n := by simpa using hk
        subst hkn
        simp [includedPairs, setA, List.filter_cons, hn]
      · simp only [includedPairs, setA, hk, Bool.false_eq_true, if_false,
          List.filter_cons]
        rw [show List.filter (fun p => _included opts p.1) (setA r n c') =
            includedPairs (setA r n c') opts from rfl,
          includedPairs_setA_excluded hn c' r]
        rfl

theorem eval_group_congr2 (va : Validator) (d1 d2 : NodeData)
    (cs1 cs2 : List (String × AbstractControl)) (opts1 opts2 : List (String × Bool))
    (hv : d1.value = d2.value)
    (hip : includedPairs cs1 opts1 = includedPairs cs2 opts2) :
    Validator.eval va (.controlGroup d1 cs1 opts1) =
      Validator.eval va (.controlGroup d2 cs2 opts2) := by
  cases va with
  | group =>
      simp only [Validator.eval]
      rw [hip]
  | _ => simp [Validator.eval, AbstractControl.value, AbstractControl.data, hv, hip]

theorem exclude_roundTrip (d : NodeData) (cs : List (String × AbstractControl))
    (opts : List (String × Bool)) (n : String)
    (hn : _included opts n = true)
    (hlc : localConsistentB (.controlGroup d cs opts) = true) :
    ∃ t1 em1, runAt (.exclude n) [] (.controlGroup d cs opts) =
        some (t1, [em1], d.parentLinked) ∧
      t1.value = .map (((includedPairs cs opts).filter (fun p => !(p.1 == n))).map
        (fun p => (p.1, p.2.value))) ∧
      (∀ (va : Validator) (D : NodeData) (c' : AbstractControl),
        Validator.eval va (.controlGroup D (setA cs n c') (setA opts n false)) =
          Validator.eval va (.controlGroup D cs (setA opts n false))) ∧
      ∃ t2 em2, runAt (.include n) [] t1 = some (t2, [em2], d.parentLinked) ∧
        t2.value = d.value ∧ t2.errors = d.errors ∧ t2.status = d.status := by
  simp only [localConsistentB, aggValue, nodeFresh, AbstractControl.data,
    AbstractControl.value, Bool.and_eq_true, beq_iff_eq] at hlc
  obtain ⟨hv, he, hs⟩ := hlc
  have hip2 : includedPairs cs (setA (setA opts n false) n true) = includedPairs cs opts :=
    includedPairs_congr (_included_restore opts n hn) cs
  have hv2 : reduceValue cs (setA (setA opts n false) n true) = d.value := by
    rw [reduceValue, hip2, ← reduceValue, ← hv]
  refine ⟨_, _, rfl, ?_, ?_, _, _, rfl, ?_, ?_, ?_⟩
  · simp only [groupUpdValue, groupSetVES, AbstractControl.value, AbstractControl.data,
      reduceValue]
    rw [includedPairs_exclude]
  · intro va D c'
    exact eval_group_congr2 va D D _ _ _ _ rfl
      (includedPairs_setA_excluded (by rw [_included_setA_self]) c' cs)
  · simp only [groupUpdValue, groupSetVES, AbstractControl.value, AbstractControl.data]
    exact hv2
  · simp only [groupUpdValue, groupSetVES, AbstractControl.errors, AbstractControl.data]
    rw [he]
    exact eval_group_congr2 d.validator _ d cs cs _ opts hv2 hip2
  · simp only [groupUpdValue, groupSetVES, AbstractControl.status, AbstractControl.data]
    rw [hs]
    congr 1
    rw [he]
    exact eval_group_congr2 d.validator _ d cs cs _ opts hv2 hip2

/-- C5: on a keyed container, `exclude(name)` (for a currently included
child of a locally consistent group) removes that child's entry from the
aggregated value mapping, and with the child excluded the validity decision
no longer depends on that child at all (replacing it by anything leaves
every validator's verdict unchanged); a subsequent `include(name)` restores
the container's value, errors and status exactly.  Concretely (Scenario C,
with the spec-modelled default group validator): `exclude("b")` turns the
Scenario B group with `status=INVALID`, `value={a:1,b:null}` into
`status=VALID`, `value={a:1}`, and `include("b")` restores it. -/
theorem claim_C5 :
    ((runAt (.exclude "b") [] scGroupB).map (fun r => (r.1.status, r.1.value)) =
        some (VALID, .map [("a", .int 1)]) ∧
      ((runAt (.exclude "b") [] scGroupB).bind
          (fun r => runAt (.include "b") [] r.1)).map
          (fun r => (r.1.status, r.1.value)) =
        some (INVALID, .map [("a", .int 1), ("b", .null)])) ∧
    ∀ (d : NodeData) (cs : List (String × AbstractControl))
      (opts : List (String × Bool)) (n : String),
      _included opts n = true →
      localConsistentB (.controlGroup d cs opts) = true →
      ∃ t1 em1, runAt (.exclude n) [] (.controlGroup d cs opts) =
          some (t1, [em1], d.parentLinked) ∧
        t1.value = .map (((includedPairs cs opts).filter (fun p => !(p.1 == n))).map
          (fun p => (p.1, p.2.value))) ∧
        (∀ (va : Validator) (D : NodeData) (c' : AbstractControl),
          Validator.eval va (.controlGroup D (setA cs n c') (setA opts n false)) =
            Validator.eval va (.controlGroup D cs (setA opts n false))) ∧
        ∃ t2 em2, runAt (.include n) [] t1 = some (t2, [em2], d.parentLinked) ∧
          t2.value = d.value ∧ t2.errors = d.errors ∧ t2.status = d.status :=
  ⟨⟨by decide, by decide⟩,
    fun d cs opts n hn hlc => exclude_roundTrip d cs opts n hn hlc⟩

theorem claim_C5_witness :
    (_included (groupOptionals scGroupB) "b" = true ∧
      localConsistentB (.controlGroup scGroupB.data (groupControls scGroupB)
        (groupOptionals scGroupB)) = true) ∧
    (∃ t1 em1, runAt (.exclude "b") [] (.controlGroup scGroupB.data
          (groupControls scGroupB) (groupOptionals scGroupB)) =
        some (t1, [em1], scGroupB.data.parentLinked) ∧
      t1.value = .map (((includedPairs (groupControls scGroupB)
          (groupOptionals scGroupB)).filter
        (fun p => !(p.1 == "b"))).map (fun p => (p.1, p.2.value))) ∧
      (∀ (va : Validator) (D : NodeData) (c' : AbstractControl),
        Validator.eval va (.controlGroup D (setA (groupControls scGroupB) "b" c')
            (setA (groupOptionals scGroupB) "b" false)) =
          Validator.eval va (.controlGroup D (groupControls scGroupB)
            (setA (groupOptionals scGroupB) "b" false))) ∧
      ∃ t2 em2, runAt (.include "b") [] t1 =
          some (t2, [em2], scGroupB.data.parentLinked) ∧
        t2.value = scGroupB.data.value ∧ t2.errors = scGroupB.data.errors ∧
          t2.status = scGroupB.data.status) :=
  ⟨⟨by decide, by decide⟩, claim_C5.2 scGroupB.data (groupControls scGroupB)
    (groupOptionals scGroupB) "b" (by decide) (by decide)⟩

theorem mem_dataList_head :
    ∀ c : AbstractControl, c.data ∈ dataList c := by
  intro c
  cases c <;> simp [dataList, AbstractControl.data]

theorem mem_dataList_setParentLink {d' : NodeData} :
    ∀ c : AbstractControl, d' ∈ dataList (setParentLink c) →
      ∃ d ∈ dataList c, d.id = d'.id ∧ d.pristine = d'.pristine := by
  intro c h
  cases c with
  | control d =>
      simp [setParentLink, dataList] at h
      exact ⟨d, by simp [dataList], by simp [h]⟩
  | controlGroup d cs opts =>
      simp [setParentLink, dataList] at h
      rcases h with h | h
      · exact ⟨d, by simp [dataList], by simp [h]⟩
      · exact ⟨d', by simp [dataList, h], rfl, rfl⟩
  | controlArray d cs =>
      simp [setParentLink, dataList] at h
      rcases h with h | h
      · exact ⟨d, by simp [dataList], by simp [h]⟩
      · exact ⟨d', by simp [dataList, h], rfl, rfl⟩

theorem mem_dataListPairs_setA {d' : NodeData} {cs : List (String × AbstractControl)}
    {s : String} {x : AbstractControl} (h : d' ∈ dataListPairs (setA cs s x)) :
    d' ∈ dataListPairs cs ∨ d' ∈ dataList x := by
  obtain ⟨p, hp, hd⟩ := mem_dataListPairs.mp h
  rcases mem_setA _ _ _ _ hp with hx | hx
  · exact Or.inr (hx ▸ hd)
  · exact Or.inl (mem_dataListPairs.mpr ⟨p, hx, hd⟩)

theorem mem_dataListL_set {d' : NodeData} {cs : List AbstractControl} {i : Nat}
    {x : AbstractControl} (h : d' ∈ dataListL (cs.set i x)) :
    d' ∈ dataListL cs ∨ d' ∈ dataList x := by
  obtain ⟨c, hc, hd⟩ := mem_dataListL.mp h
  rcases List.mem_or_eq_of_mem_set hc with hx | hx
  · exact Or.inl (mem_dataListL.mpr ⟨c, hx, hd⟩)
  · exact Or.inr (hx ▸ hd)

theorem mem_dataListPairs_of_lookup {d' : NodeData} {cs : List (String × AbstractControl)}
    {s : String} {child : AbstractControl} (hlk : lookupA cs s = some child)
    (h : d' ∈ dataList child) : d' ∈ dataListPairs cs := by
  obtain ⟨k, hm⟩ := lookupA_mem hlk
  exact mem_dataListPairs.mpr ⟨(k, child), hm, h⟩

theorem mem_dataListL_of_get {d' : NodeData} {cs : List AbstractControl} {i : Nat}
    {child : AbstractControl} (hlk : cs[i]? = some child)
    (h : d' ∈ dataList child) : d' ∈ dataListL cs :=
  mem_dataListL.mpr ⟨child, List.getElem?_mem hlk, h⟩

theorem dataListL_append :
    ∀ a b : List AbstractControl, dataListL (a ++ b) = dataListL a ++ dataListL b
  | [], b => by simp [dataListL]
  | x :: r, b => by simp [dataListL, dataListL_append r b]

theorem pristine_runAt :
    ∀ (p : List PathStep) (op : LocalOp) (t t' : AbstractControl)
      (ems : List Emission) (u : Bool),
      runAt op p t = some (t', ems, u) →
      ∀ d' ∈ dataList t', d'.pristine = true →
        ∃ d ∈ dataList t ++ injData op, d.id = d'.id ∧ d.pristine = true
  | [], op, t, t', ems, u, hrun, d', hmem, hpr => by
      cases op with
      | updateValue v =>
          cases t <;> simp [runAt, applyLocal] at hrun
          obtain ⟨h1, -, -⟩ := hrun
          subst h1
          simp [dataList] at hmem
          subst hmem
          simp at hpr
      | push c =>
          cases t with
          | control d => simp [runAt, applyLocal] at hrun
          | controlGroup d cs opts => simp [runAt, applyLocal] at hrun
          | controlArray d cs =>
              simp [runAt, applyLocal] at hrun
              obtain ⟨h1, -, -⟩ := hrun
              subst h1
              simp only [arrayUpdValue, arraySetVES, dataList, List.mem_cons] at hmem
              rcases hmem with hmem | hmem
              · subst hmem
                simp at hpr
              · rw [dataListL_append] at hmem
                rcases List.mem_append.mp hmem with hmem | hmem
                · exact ⟨d', by simp [dataList, hmem], rfl, hpr⟩
                · simp [dataListL] at hmem
                  obtain ⟨dd, hdd, hid, hp⟩ := mem_dataList_setParentLink c hmem
                  exact ⟨dd, by simp [injData, hdd], hid, by rw [hp, hpr]⟩
      | insert i c =>
          cases t with
          | control d => simp [runAt, applyLocal] at hrun
          | controlGroup d cs opts => simp [runAt, applyLocal] at hrun
          | controlArray d cs =>
              simp [runAt, applyLocal] at hrun
              obtain ⟨h1, -, -⟩ := hrun
              subst h1
              simp only [arrayUpdValue, arraySetVES, dataList, List.mem_cons] at hmem
              rcases hmem with hmem | hmem
              · subst hmem
                simp at hpr
              · obtain ⟨cc, hcc, hd⟩ := mem_dataListL.mp hmem
                rcases mem_listInsertAt _ _ _ _ hcc with hcc | hcc
                · subst hcc
                  obtain ⟨dd, hdd, hid, hp⟩ := mem_dataList_setParentLink c hd
                  exact ⟨dd, by simp [injData, hdd], hid, by rw [hp, hpr]⟩
                · exact ⟨d', by simp [dataList, mem_dataListL.mpr ⟨cc, hcc, hd⟩],
                    rfl, hpr⟩
      | removeAt i =>
          cases t with
          | control d => simp [runAt, applyLocal] at hrun
          | controlGroup d cs opts => simp [runAt, applyLocal] at hrun
          | controlArray d cs =>
              simp [runAt, applyLocal] at hrun
              obtain ⟨h1, -, -⟩ := hrun
              subst h1
              simp only [arrayUpdValue, arraySetVES, dataList, List.mem_cons] at hmem
              rcases hmem with hmem | hmem
              · subst hmem
                simp at hpr
              · obtain ⟨cc, hcc, hd⟩ := mem_dataListL.mp hmem
                exact ⟨d', by simp [dataList,
                  mem_dataListL.mpr ⟨cc, mem_listRemoveAt _ _ _ hcc, hd⟩], rfl, hpr⟩
      | «include» n =>
          cases t with
          | control d => simp [runAt, applyLocal] at hrun
          | controlArray d cs => simp [runAt, applyLocal] at hrun
          | controlGroup d cs opts =>
              simp [runAt, applyLocal] at hrun
              obtain ⟨h1, -, -⟩ := hrun
              subst h1
              simp only [groupUpdValue, groupSetVES, dataList, List.mem_cons] at hmem
              rcases hmem with hmem | hmem
              · subst hmem
                simp at hpr
              · exact ⟨d', by simp [dataList, hmem], rfl, hpr⟩
      | exclude n =>
          cases t with
          | control d => simp [runAt, applyLocal] at hrun
          | controlArray d cs => simp [runAt, applyLocal] at hrun
          | controlGroup d cs opts =>
              simp [runAt, applyLocal] at hrun
              obtain ⟨h1, -, -⟩ := hrun
              subst h1
              simp only [groupUpdValue, groupSetVES, dataList, List.mem_cons] at hmem
              rcases hmem with hmem | hmem
              · subst hmem
                simp at hpr
              · exact ⟨d', by simp [dataList, hmem], rfl, hpr⟩
      | addControl n c =>
          cases t with
          | control d => simp [runAt, applyLocal] at hrun
          | controlArray d cs => simp [runAt, applyLocal] at hrun
          | controlGroup d cs opts =>
              simp [runAt, applyLocal] at hrun
              obtain ⟨h1, -, -⟩ := hrun
              subst h1
              simp only [dataList, List.mem_cons] at hmem
              rcases hmem with hmem | hmem
              · subst hmem
                exact ⟨d', by simp [dataList], rfl, hpr⟩
              · rcases mem_dataListPairs_setA hmem with hmem | hmem
                · exact ⟨d', by simp [dataList, hmem], rfl, hpr⟩
                · exact ⟨d', by simp [injData, hmem], rfl, hpr⟩
      | removeControl n =>
          cases t with
          | control d => simp [runAt, applyLocal] at hrun
          | controlArray d cs => simp [runAt, applyLocal] at hrun
          | controlGroup d cs opts =>
              simp [runAt, applyLocal] at hrun
              obtain ⟨h1, -, -⟩ := hrun
              subst h1
              simp only [dataList, List.mem_cons] at hmem
              rcases hmem with hmem | hmem
              · subst hmem
                exact ⟨d', by simp [dataList], rfl, hpr⟩
              · obtain ⟨pq, hpq, hd⟩ := mem_dataListPairs.mp hmem
                exact ⟨d', by simp [dataList,
                  mem_dataListPairs.mpr ⟨pq, mem_removeA _ _ _ hpq, hd⟩], rfl, hpr⟩
      | updateValidity =>
          cases t with
          | control d =>
              simp [runAt, applyLocal, nodeUpdValidity] at hrun
              obtain ⟨h1, -, -⟩ := hrun
              subst h1
              simp [dataList] at hmem
              subst hmem
              exact ⟨d, by simp [dataList], rfl, hpr⟩
          | controlGroup d cs opts =>
              simp [runAt, applyLocal, nodeUpdValidity] at hrun
              obtain ⟨h1, -, -⟩ := hrun
              subst h1
              simp only [dataList, List.mem_cons] at hmem
              rcases hmem with hmem | hmem
              · subst hmem
                exact ⟨d, by simp [dataList], rfl, hpr⟩
              · exact ⟨d', by simp [dataList, hmem], rfl, hpr⟩
          | controlArray d cs =>
              simp [runAt, applyLocal, nodeUpdValidity] at hrun
              obtain ⟨h1, -, -⟩ := hrun
              subst h1
              simp only [dataList, List.mem_cons] at hmem
              rcases hmem with hmem | hmem
              · subst hmem
                exact ⟨d, by simp [dataList], rfl, hpr⟩
              · exact ⟨d', by simp [dataList, hmem], rfl, hpr⟩
  | .key s :: p, op, t, t', ems, u, hrun, d', hmem, hpr => by
      cases t with
      | control d => simp [runAt] at hrun
      | controlArray d cs => simp [runAt] at hrun
      | controlGroup d cs opts =>
          cases hlk : lookupA cs s with
          | none => simp [runAt, hlk] at hrun
          | some child =>
              cases hrec : runAt op p child with
              | none => simp [runAt, hlk, hrec] at hrun
              | some r =>
                  obtain ⟨child', ems', up⟩ := r
                  have hkids : d' ∈ dataListPairs (setA cs s child') →
                      ∃ dd ∈ dataList (.controlGroup d cs opts) ++ injData op,
                        dd.id = d'.id ∧ dd.pristine = true := by
                    intro hm
                    rcases mem_dataListPairs_setA hm with hm | hm
                    · exact ⟨d', by simp [dataList, hm], rfl, hpr⟩
                    · obtain ⟨dd, hdd, hid, hp⟩ :=
                        pristine_runAt p op child child' ems' up hrec d' hm hpr
                      rcases List.mem_append.mp hdd with hdd | hdd
                      · exact ⟨dd, by
                          simp [dataList, mem_dataListPairs_of_lookup hlk hdd],
                          hid, hp⟩
                      · exact ⟨dd, by simp [hdd], hid, hp⟩
                  have hstep : ∀ {D : NodeData},
                      d' ∈ dataList (.controlGroup D (setA cs s child') opts) →
                      D.id = d.id → D.pristine = d.pristine →
                      ∃ dd ∈ dataList (.controlGroup d cs opts) ++ injData op,
                        dd.id = d'.id ∧ dd.pristine = true := by
                    intro D hm hDid hDpr
                    simp only [dataList, List.mem_cons] at hm
                    rcases hm with hm | hm
                    · subst hm
                      refine ⟨d, by simp [dataList], hDid.symm, ?_⟩
                      rw [← hDpr]
                      exact hpr
                    · exact hkids hm
                  have hstale : ∀ {D : NodeData},
                      d' ∈ dataList (.controlGroup D (setA cs s child') opts) →
                      D.pristine = false →
                      ∃ dd ∈ dataList (.controlGroup d cs opts) ++ injData op,
                        dd.id = d'.id ∧ dd.pristine = true := by
                    intro D hm hDpr
                    simp only [dataList, List.mem_cons] at hm
                    rcases hm with hm | hm
                    · subst hm
                      rw [hpr] at hDpr
                      simp at hDpr
                    · exact hkids hm
                  cases up with
                  | false =>
                      simp [runAt, hlk, hrec] at hrun
                      obtain ⟨h1, -, -⟩ := hrun
                      subst h1
                      exact hstep hmem rfl rfl
                  | true =>
                      cases hoc : opChain op with
                      | true =>
                          simp [runAt, hlk, hrec, hoc, groupUpdValue, groupSetVES] at hrun
                          obtain ⟨h1, -, -⟩ := hrun
                          subst h1
                          exact hstale hmem rfl
                      | false =>
                          simp [runAt, hlk, hrec, hoc, nodeUpdValidity,
                            AbstractControl.data] at hrun
                          obtain ⟨h1, -, -⟩ := hrun
                          subst h1
                          exact hstep hmem rfl rfl
  | .idx i :: p, op, t, t', ems, u, hrun, d', hmem, hpr => by
      cases t with
      | control d => simp [runAt] at hrun
      | controlGroup d cs opts => simp [runAt] at hrun
      | controlArray d cs =>
          cases hlk : cs[i]? with
          | none => simp [runAt, hlk] at hrun
          | some child =>
              cases hrec : runAt op p child with
              | none => simp [runAt, hlk, hrec] at hrun
              | some r =>
                  obtain ⟨child', ems', up⟩ := r
                  have hkids : d' ∈ dataListL (cs.set i child') →
                      ∃ dd ∈ dataList (.controlArray d cs) ++ injData op,
                        dd.id = d'.id ∧ dd.pristine = true := by
                    intro hm
                    rcases mem_dataListL_set hm with hm | hm
                    · exact ⟨d', by simp [dataList, hm], rfl, hpr⟩
                    · obtain ⟨dd, hdd, hid, hp⟩ :=
                        pristine_runAt p op child child' ems' up hrec d' hm hpr
                      rcases List.mem_append.mp hdd with hdd | hdd
                      · exact ⟨dd, by
                          simp [dataList, mem_dataListL_of_get hlk hdd], hid, hp⟩
                      · exact ⟨dd, by simp [hdd], hid, hp⟩
                  have hstep : ∀ {D : NodeData},
                      d' ∈ dataList (.controlArray D (cs.set i child')) →
                      D.id = d.id → D.pristine = d.pristine →
                      ∃ dd ∈ dataList (.controlArray d cs) ++ injData op,
                        dd.id = d'.id ∧ dd.pristine = true := by
                    intro D hm hDid hDpr
                    simp only [dataList, List.mem_cons] at hm
                    rcases hm with hm | hm
                    · subst hm
                      refine ⟨d, by simp [dataList], hDid.symm, ?_⟩
                      rw [← hDpr]
                      exact hpr
                    · exact hkids hm
                  have hstale : ∀ {D : NodeData},
                      d' ∈ dataList (.controlArray D (cs.set i child')) →
                      D.pristine = false →
                      ∃ dd ∈ dataList (.controlArray d cs) ++ injData op,
                        dd.id = d'.id ∧ dd.pristine = true := by
                    intro D hm hDpr
                    simp only [dataList, List.mem_cons] at hm
                    rcases hm with hm | hm
                    · subst hm
                      rw [hpr] at hDpr
                      simp at hDpr
                    · exact hkids hm
                  cases up with
                  | false =>
                      simp [runAt, hlk, hrec] at hrun
                      obtain ⟨h1, -, -⟩ := hrun
                      subst h1
                      exact hstep hmem rfl rfl
                  | true =>
                      cases hoc : opChain op with
                      | true =>
                          simp [runAt, hlk, hrec, hoc, arrayUpdValue, arraySetVES] at hrun
                          obtain ⟨h1, -, -⟩ := hrun
                          subst h1
                          exact hstale hmem rfl
                      | false =>
                          simp [runAt, hlk, hrec, hoc, nodeUpdValidity,
                            AbstractControl.data] at hrun
                          obtain ⟨h1, -, -⟩ := hrun
                          subst h1
                          exact hstep hmem rfl rfl

/-- C7: every node is pristine at construction, and pristine monotonicity
holds per object: after any public operation, any surviving node (tracked
by its ghost identity, with identities distinct and injected identities
fresh) that was already dirty is still dirty — no operation ever writes
`pristine := true`. -/
theorem claim_C7 :
    (∀ (i : Nat) (v : Value) (va : Validator), (mkControl i v va).pristine = true) ∧
    (∀ (i : Nat) (cs : List (String × AbstractControl))
        (opts : Option (List (String × Bool))) (va : Validator),
      (mkControlGroup i cs opts va).pristine = true) ∧
    (∀ (i : Nat) (cs : List AbstractControl) (va : Validator),
      (mkControlArray i cs va).pristine = true) ∧
    (∀ (op : LocalOp) (p : List PathStep) (t t' : AbstractControl)
        (ems : List Emission) (u : Bool) (i : Nat),
      runAt op p t = some (t', ems, u) →
      (idsOf t ++ (injData op).map NodeData.id).Nodup →
      (∃ dd ∈ dataList t, dd.id = i ∧ dd.pristine = false) →
      ∀ d' ∈ dataList t', d'.id = i → d'.pristine = false) := by
  refine ⟨?_, ?_, ?_, ?_⟩
  · intro i v va
    simp [mkControl, AbstractControl.pristine, AbstractControl.data]
  · intro i cs opts va
    simp [mkControlGroup, groupSetVES, AbstractControl.pristine, AbstractControl.data]
  · intro i cs va
    simp [mkControlArray, arraySetVES, AbstractControl.pristine, AbstractControl.data]
  · rintro op p t t' ems u i hrun hnd ⟨dd, hdd, hddid, hddpr⟩ d' hd' hid
    cases hb : d'.pristine with
    | false => rfl
    | true =>
        obtain ⟨e, he, heid, hepr⟩ := pristine_runAt p op t t' ems u hrun d' hd' hb
        rcases List.mem_append.mp he with he | he
        · have heq : e = dd := by
            have hinj := List.inj_on_of_nodup_map ((List.nodup_append.mp hnd).1)
            exact hinj he hdd (by rw [heid, hid, hddid])
          rw [heq, hddpr] at hepr
          simp at hepr
        · have hdisj := List.disjoint_of_nodup_append hnd
          have h1 : i ∈ idsOf t := List.mem_map.mpr ⟨dd, hdd, hddid⟩
          have h2 : i ∈ (injData op).map NodeData.id :=
            List.mem_map.mpr ⟨e, he, by rw [heid, hid]⟩
          exact (hdisj h1 h2).elim

theorem claim_C7_witness :
    ((idsOf c7Dirty ++ (injData (.updateValue (.int 3))).map NodeData.id).Nodup ∧
      ∃ dd ∈ dataList c7Dirty, dd.id = 2 ∧ dd.pristine = false) ∧
    (runAt (.updateValue (.int 3)) [.key "m", .key "l"] c7Dirty).map
        (fun r => (dataList r.1).all (fun d' => !(d'.id == 2) || !d'.pristine)) =
      some true := by
  refine ⟨⟨by decide, by decide⟩, ?_⟩
  cases hrun : runAt (.updateValue (.int 3)) [.key "m", .key "l"] c7Dirty with
  | none =>
      have hs : (runAt (.updateValue (.int 3)) [.key "m", .key "l"] c7Dirty).isSome
          = true := by decide
      rw [hrun] at hs
      simp at hs
  | some r =>
      simp only [Option.map_some', Option.some.injEq]
      rw [List.all_eq_true]
      have hmono := claim_C7.2.2.2 (.updateValue (.int 3)) [.key "m", .key "l"]
        c7Dirty r.1 r.2.1 r.2.2 2 (by rw [← hrun]) (by decide) (by decide)
      intro d' hd'
      by_cases hh : d'.id = 2
      · simp [hh, hmono d' hd' hh]
      · simp [hh]
